import Mathlib

/-!
Verification of the avalanche peer manager (src/avalanche/peermanager.cpp):
a weighted random peer selector over a 64-bit number line partitioned into
per-peer slots, with tombstone-based deletion, deferred compaction and an
interpolation search.

The embedding mirrors the C++ source. 64-bit unsigned arithmetic is modelled
on Nat with an explicit modulus W = 2^64 at every operation that the machine
performs modulo 2^64. Operations whose C++ body can hit a failing assert (or
an out-of-bounds vector access) return Option, with none standing for the
abort; a some value is a normal return.
-/

namespace PeerMgr

/-- Modulus of 64-bit unsigned arithmetic (uint64_t / size_t). -/
def W : Nat := 2 ^ 64

/-- Peer identities are uint32_t values. -/
abbrev PeerId := Nat

/-- Modelled from the spec: the sentinel peer id (spec §3 and §6,
NO_PEER = 0xFFFF_FFFF; the declaration lives in peermanager.h which is not
under src/). -/
def NO_PEER : PeerId := 2 ^ 32 - 1

/-- Modelled from the spec: a slot is an immutable triple
(start : u64, score : u32, peer : PeerId) (spec §3; the Slot class is
declared in peermanager.h which is not under src/). -/
structure Slot where
  start : Nat
  score : Nat
  peer : PeerId
deriving DecidableEq

/-- Modelled from the spec: stop = start + score, computed in uint64_t
(spec §3, §4.1). -/
def Slot.getStop (s : Slot) : Nat := (s.start + s.score) % W

/-- Modelled from the spec: contains(x) means start ≤ x < stop (spec §4.1). -/
def Slot.contains (s : Slot) (x : Nat) : Bool :=
  decide (s.start ≤ x ∧ x < s.getStop)

/-- Modelled from the spec: precedes(x) means stop ≤ x (spec §4.1). -/
def Slot.precedes (s : Slot) (x : Nat) : Bool := decide (s.getStop ≤ x)

/-- Modelled from the spec: follows(x) means x < start (spec §4.1). -/
def Slot.follows (s : Slot) (x : Nat) : Bool := decide (x < s.start)

/-- Modelled from the spec: withScore replaces the score, keeping start and
peer (spec §4.4). -/
def Slot.withScore (s : Slot) (v : Nat) : Slot := { s with score := v }

/-- Modelled from the spec: withStart replaces the start, keeping score and
peer (spec §4.6). -/
def Slot.withStart (s : Slot) (v : Nat) : Slot := { s with start := v }

/-- Modelled from the spec: withPeerId replaces the peer, keeping start and
score (spec §4.3). -/
def Slot.withPeerId (s : Slot) (v : PeerId) : Slot := { s with peer := v }

/-- Lookup in the peer index (std::unordered_map::find): first entry with the
given key. -/
def alookup (p : PeerId) : List (PeerId × Nat) → Option Nat
  | [] => none
  | e :: t => if e.1 = p then some e.2 else alookup p t

/-- Erase from the peer index (std::unordered_map::erase): drops the first
entry with the given key. -/
def aerase (p : PeerId) : List (PeerId × Nat) → List (PeerId × Nat)
  | [] => []
  | e :: t => if e.1 = p then t else e :: aerase p t

/-- Upsert in the peer index (it->second = v, or operator[] assignment):
replaces the value of the first entry with the given key, appending a new
entry when the key is absent. -/
def aset (p : PeerId) (v : Nat) : List (PeerId × Nat) → List (PeerId × Nat)
  | [] => [(p, v)]
  | e :: t => if e.1 = p then (p, v) :: t else e :: aset p v t

/-- Modelled from the spec: the peer manager state (members declared in
peermanager.h, not under src/): the slot array, the peer index (modelled as
an association list with unique keys), slotCount and fragmentation
(spec §2, §3). -/
structure PeerManager where
  slots : List Slot
  peerIndices : List (PeerId × Nat)
  slotCount : Nat
  fragmentation : Nat
deriving DecidableEq

/-- The empty peer manager. -/
def PeerManager.empty : PeerManager := ⟨[], [], 0, 0⟩

/-- PeerManager::addPeer. emplace inserts only when the key is absent;
assert(inserted.second) aborts (none) on a duplicate. Otherwise a slot
(slotCount, score, p) is appended and slotCount becomes start + score in
uint64_t arithmetic. -/
def PeerManager.addPeer (pm : PeerManager) (p : PeerId) (score : Nat) :
    Option (PeerId × PeerManager) :=
  match alookup p pm.peerIndices with
  | some _ => none
  | none =>
    some (p, { slots := pm.slots ++ [⟨pm.slotCount, score, p⟩],
               peerIndices := pm.peerIndices ++ [(p, pm.slots.length)],
               slotCount := (pm.slotCount + score) % W,
               fragmentation := pm.fragmentation })

/-- The value slots.back().getStop() when the array is nonempty, else 0;
used by the tail path of removePeer. -/
def lastStop (l : List Slot) : Nat :=
  match l.getLast? with
  | none => 0
  | some s => s.getStop

/-- PeerManager::removePeer. Unknown peer: returns false with no change.
Otherwise i must be in bounds (assert, none on failure); the last slot is
popped (slotCount becomes the new back stop, or 0), an interior slot is tombstoned
(fragmentation += its score). The index entry is erased. -/
def PeerManager.removePeer (pm : PeerManager) (p : PeerId) :
    Option (Bool × PeerManager) :=
  match alookup p pm.peerIndices with
  | none => some (false, pm)
  | some i =>
    if h : i < pm.slots.length then
      if i + 1 = pm.slots.length then
        some (true, { slots := pm.slots.dropLast,
                      peerIndices := aerase p pm.peerIndices,
                      slotCount := lastStop pm.slots.dropLast,
                      fragmentation := pm.fragmentation })
      else
        some (true, { slots := pm.slots.set i
                        ((pm.slots.get ⟨i, h⟩).withPeerId NO_PEER),
                      peerIndices := aerase p pm.peerIndices,
                      slotCount := pm.slotCount,
                      fragmentation :=
                        (pm.fragmentation + (pm.slots.get ⟨i, h⟩).score) % W })
    else none

/-- PeerManager::rescorePeer. Unknown peer: false. Last slot: replace the
score in place, slotCount := new stop. Interior with
stop = start + score ≤ next start (uint64_t): replace in place and add
stop_old - stop_new to fragmentation in wrapping uint64_t arithmetic.
Otherwise tombstone slot i, append a fresh slot at the tail and point the
index entry at it. -/
def PeerManager.rescorePeer (pm : PeerManager) (p : PeerId) (score : Nat) :
    Option (Bool × PeerManager) :=
  match alookup p pm.peerIndices with
  | none => some (false, pm)
  | some i =>
    if h : i < pm.slots.length then
      let s := pm.slots.get ⟨i, h⟩
      if i + 1 = pm.slots.length then
        some (true, { pm with
          slots := pm.slots.set i (s.withScore score),
          slotCount := (s.withScore score).getStop })
      else
        let stop := (s.start + score) % W
        if h2 : i + 1 < pm.slots.length then
          if stop ≤ (pm.slots.get ⟨i + 1, h2⟩).start then
            some (true, { pm with
              slots := pm.slots.set i (s.withScore score),
              fragmentation :=
                (pm.fragmentation + (s.getStop + W - stop) % W) % W })
          else
            some (true, { pm with
              slots := pm.slots.set i (s.withPeerId NO_PEER)
                         ++ [⟨pm.slotCount, score, p⟩],
              peerIndices := aset p pm.slots.length pm.peerIndices,
              slotCount := (pm.slotCount + score) % W,
              fragmentation := (pm.fragmentation + s.score) % W })
        else none
    else none

/-- First half of PeerManager::verify: walk the slot array with the running
prevStop, checking monotonicity and, for live slots, that the index entry
points exactly here. -/
def verifySlots (idx : List (PeerId × Nat)) : List Slot → Nat → Nat → Bool
  | [], _, _ => true
  | s :: t, i, prevStop =>
    if s.start < prevStop then false
    else if s.peer = NO_PEER then verifySlots idx t (i + 1) s.getStop
    else
      match alookup s.peer idx with
      | none => false
      | some j => decide (j = i) && verifySlots idx t (i + 1) s.getStop

/-- Second half of PeerManager::verify: every index entry points to a slot
referring to this peer. -/
def verifyIdx (slots : List Slot) : List (PeerId × Nat) → Bool
  | [] => true
  | e :: t =>
    match slots[e.2]? with
    | none => false
    | some s => decide (s.peer = e.1) && verifyIdx slots t

/-- PeerManager::verify. -/
def PeerManager.verify (pm : PeerManager) : Bool :=
  verifySlots pm.peerIndices pm.slots 0 0 && verifyIdx pm.slots pm.peerIndices

/-- The clearLastElements lambda in PeerManager::compact: pop trailing
tombstones. -/
def trimDead : List Slot → List Slot
  | [] => []
  | s :: t =>
    match trimDead t with
    | [] => if s.peer = NO_PEER then [] else [s]
    | t' => s :: t'

/-- The sweep loop of PeerManager::compact, structural on fuel (any fuel
greater than slots.length - i computes the loop; compact supplies it). A
live slot slides to prevStop; a dead slot is replaced by the (live, by the
trims) last slot, the index entry of the moved peer is repointed, the tail
is popped and trailing tombstones are trimmed. none models the assert on a
dead replacement firing (or fuel running out, which the caller prevents). -/
def compactLoop : Nat → List Slot → List (PeerId × Nat) → Nat → Nat →
    Option (List Slot × List (PeerId × Nat) × Nat)
  | 0, _, _, _, _ => none
  | fuel + 1, slots, idx, i, prevStop =>
    match slots[i]? with
    | none => some (slots, idx, prevStop)
    | some s =>
      if s.peer ≠ NO_PEER then
        compactLoop fuel (slots.set i (s.withStart prevStop)) idx (i + 1)
          ((s.withStart prevStop).getStop)
      else
        match slots.getLast? with
        | none => none
        | some b =>
          if b.peer = NO_PEER then none
          else
            compactLoop fuel
              (trimDead ((slots.set i (b.withStart prevStop)).dropLast))
              (aset b.peer i idx) (i + 1) ((b.withStart prevStop).getStop)

/-- PeerManager::compact: trim trailing tombstones, run the sweep, return
saved = slotCount - prevStop (uint64_t) and the state with
slotCount := prevStop and fragmentation := 0. -/
def PeerManager.compact (pm : PeerManager) : Option (Nat × PeerManager) :=
  let slots0 := trimDead pm.slots
  match compactLoop (slots0.length + 1) slots0 pm.peerIndices 0 0 with
  | none => none
  | some (slotsf, idxf, prevStop) =>
    some ((pm.slotCount + W - prevStop) % W,
          { slots := slotsf, peerIndices := idxf,
            slotCount := prevStop, fragmentation := 0 })

/-- The linear fallback loop of selectPeerImpl over indices [b, e), structural
on fuel (any fuel greater than e - b computes it). none models an
out-of-bounds access. -/
def linearScan (slots : List Slot) (x : Nat) : Nat → Nat → Nat → Option PeerId
  | 0, _, _ => none
  | fuel + 1, b, e =>
    if b < e then
      match slots[b]? with
      | none => none
      | some s => if s.contains x then some s.peer else linearScan slots x fuel (b + 1) e
    else some NO_PEER

/-- The interpolation loop of selectPeerImpl, structural on fuel (any fuel
greater than e - b computes it; the wrapper supplies slots.length + 1).
The probe multiplication (x - bot) * (e - b) is uint64_t and wraps modulo W.
none models the in-loop assert begin ≤ i < end failing or an out-of-bounds
access; some NO_PEER is the function normally returning NO_PEER. -/
def selectLoop (slots : List Slot) (x : Nat) : Nat → Nat → Nat → Nat → Nat →
    Option PeerId
  | 0, _, _, _, _ => none
  | fuel + 1, b, e, bot, top =>
    if e - b > 8 then
      if x < bot ∨ top ≤ x then some NO_PEER
      else
        if b ≤ b + (x - bot) * (e - b) % W / (top - bot) ∧
            b + (x - bot) * (e - b) % W / (top - bot) < e then
          match slots[b + (x - bot) * (e - b) % W / (top - bot)]? with
          | none => none
          | some s =>
            if s.contains x then some s.peer
            else if s.precedes x then
              if e ≤ b + (x - bot) * (e - b) % W / (top - bot) + 1 then some NO_PEER
              else
                match slots[b + (x - bot) * (e - b) % W / (top - bot) + 1]? with
                | none => none
                | some sb =>
                  selectLoop slots x fuel
                    (b + (x - bot) * (e - b) % W / (top - bot) + 1) e sb.start top
            else if s.follows x then
              selectLoop slots x fuel b
                (b + (x - bot) * (e - b) % W / (top - bot)) bot s.start
            else some NO_PEER
        else none
    else linearScan slots x (e - b + 1) b e

/-- selectPeerImpl: assert(slot ≤ max) (none on failure), then the
interpolation loop over the whole array with bottom = 0 and top = max. -/
def selectPeerImpl (slots : List Slot) (x max : Nat) : Option PeerId :=
  if x ≤ max then selectLoop slots x (slots.length + 1) 0 slots.length 0 max
  else none

/-- Mutations of the manager, for reasoning about interleavings. -/
inductive Op where
  | add (p : PeerId) (score : Nat)
  | remove (p : PeerId)
  | rescore (p : PeerId) (score : Nat)
deriving DecidableEq

/-- Apply one mutation, keeping only the post-state. -/
def PeerManager.applyOp (pm : PeerManager) : Op → Option PeerManager
  | .add p s => (pm.addPeer p s).map (·.2)
  | .remove p => (pm.removePeer p).map (·.2)
  | .rescore p s => (pm.rescorePeer p s).map (·.2)

/-- Run a mutation sequence from a state; none as soon as an assert fires. -/
def runOps (pm : PeerManager) : List Op → Option PeerManager
  | [] => some pm
  | op :: ops =>
    match pm.applyOp op with
    | none => none
    | some pm' => runOps pm' ops

/-- A mutation is valid in a state when it respects the calling contract of
the spec: addPeer gets a fresh, non-sentinel uint32 peer id and a positive
uint32 score, and no uint64 arithmetic overflows (spec §4.2: overflow of the
64-bit number line is a caller responsibility; §3: the sentinel must never
be passed as a real peer). removePeer is unconstrained. rescorePeer gets a
uint32 score that overflows neither the slot stop nor slotCount. -/
def validOp (pm : PeerManager) : Op → Bool
  | .add p s =>
    decide (p ≠ NO_PEER) && decide (p < 2 ^ 32) &&
    decide (alookup p pm.peerIndices = none) &&
    decide (0 < s) && decide (s < 2 ^ 32) && decide (pm.slotCount + s < W)
  | .remove _ => true
  | .rescore p s =>
    decide (s < 2 ^ 32) &&
    match alookup p pm.peerIndices with
    | none => true
    | some i =>
      match pm.slots[i]? with
      | none => false
      | some slot =>
        decide (slot.start + s < W) && decide (pm.slotCount + s < W)

/-- A mutation sequence is valid when each step is valid in the state the
previous steps produced (and no step aborts). -/
def validSeq (pm : PeerManager) : List Op → Bool
  | [] => true
  | op :: ops =>
    validOp pm op &&
    match pm.applyOp op with
    | none => false
    | some pm' => validSeq pm' ops

/-- A state is reachable when some valid mutation sequence produces it from
the empty manager. -/
def Reachable (pm : PeerManager) : Prop :=
  ∃ ops : List Op, validSeq PeerManager.empty ops = true ∧
    runOps PeerManager.empty ops = some pm

/-- Sum of the scores of a slot list. -/
def scoreSum (l : List Slot) : Nat := (l.map Slot.score).sum

/-- The multiset of (peer, score) pairs of the live slots; compaction must
preserve it. -/
def liveKeys (l : List Slot) : Multiset (PeerId × Nat) :=
  ((l.filter (fun s => decide (s.peer ≠ NO_PEER))).map (fun s => (s.peer, s.score)) :
    List (PeerId × Nat))

/-- Monotone, non-overlapping slots (spec §3): every adjacent pair satisfies
a.stop ≤ b.start, in the program's uint64 stop arithmetic. -/
def SlotsSorted (l : List Slot) : Prop :=
  List.Chain' (fun a b => a.getStop ≤ b.start) l

/-- No slot's stop computation overflows uint64 (spec §3: intervals live on
the 64-bit number line). -/
def NoWrap (l : List Slot) : Prop := ∀ s ∈ l, s.start + s.score < W

/-- The §3 invariants of a peer manager state: slots are monotone and
non-overlapping without stop overflow, slotCount is the last stop (0 when
empty), index keys are unique non-sentinel ids, every index entry points to
a slot owned by its peer, and every live slot is indexed exactly at its
position. -/
def Inv (pm : PeerManager) : Prop :=
  SlotsSorted pm.slots ∧
  NoWrap pm.slots ∧
  pm.slotCount = lastStop pm.slots ∧
  (pm.peerIndices.map Prod.fst).Nodup ∧
  (∀ e ∈ pm.peerIndices, e.1 ≠ NO_PEER ∧
    (pm.slots[e.2]?).map Slot.peer = some e.1) ∧
  (∀ i, ∀ h : i < pm.slots.length, (pm.slots.get ⟨i, h⟩).peer ≠ NO_PEER →
    alookup (pm.slots.get ⟨i, h⟩).peer pm.peerIndices = some i)

/-- A packed slot list starting at n: consecutive, gap-free, all live
(spec §4.6: after compaction live slots are a dense prefix). -/
def packedFrom : Nat → List Slot → Bool
  | _, [] => true
  | n, s :: t =>
    decide (s.start = n) && decide (s.peer ≠ NO_PEER) && packedFrom (s.start + s.score) t

/-- The specification of the selector result: the peer field of the first
(and, for sorted arrays, unique) slot containing x, or NO_PEER when no slot
contains x. -/
def findPeerSpec (slots : List Slot) (x : Nat) : PeerId :=
  match slots.find? (fun s => s.contains x) with
  | some s => s.peer
  | none => NO_PEER

/-- The score currently recorded for a peer, through the peer index. -/
def peerScore (pm : PeerManager) (p : PeerId) : Option Nat :=
  match alookup p pm.peerIndices with
  | none => none
  | some i => (pm.slots[i]?).map Slot.score

/-- Sum of the scores recorded in a key multiset. -/
def keySum (K : Multiset (PeerId × Nat)) : Nat := (K.map Prod.snd).sum

/-!
Theorems. Counterexamples and amended statements for the claims the code
refutes, then the general correctness development.
-/

/-- Counterexample to C5: in the reachable state after
add(1,10); add(2,20); rescore(1,5) the peer-1 slot is (0,5,1) with a gap up
to the next start 10. The call rescore(1,8) takes the interior fits-in-place
branch (0 + 8 ≤ 10), yet s.stop = 5 < 0 + 8 = start + score, so the quantity
s.stop − (start + score) is negative: the uint64 subtraction wraps to
2^64 − 3 and fragmentation strictly decreases from 5 to 2 instead of having
a non-negative quantity added. -/
theorem rescore_fits_delta_negative_cex :
    runOps PeerManager.empty [.add 1 10, .add 2 20, .rescore 1 5]
      = some ⟨[⟨0, 5, 1⟩, ⟨10, 20, 2⟩], [(1, 0), (2, 1)], 30, 5⟩ ∧
    PeerManager.rescorePeer ⟨[⟨0, 5, 1⟩, ⟨10, 20, 2⟩], [(1, 0), (2, 1)], 30, 5⟩ 1 8
      = some (true, ⟨[⟨0, 8, 1⟩, ⟨10, 20, 2⟩], [(1, 0), (2, 1)], 30, 2⟩) ∧
    Slot.getStop ⟨0, 5, 1⟩ < 0 + 8 ∧
    (Slot.getStop ⟨0, 5, 1⟩ + W - ((0 + 8) % W)) % W = W - 3 ∧
    (2 : Nat) < 5 := by
  decide

/-- Claim C5 (amended): in rescorePeer's interior fits-in-place branch the
quantity s.stop − (start + score) is non-negative whenever the new score
does not exceed the old one, and is then added to fragmentation as the plain
difference (the wrapping uint64 subtraction computes it exactly); when the
new score is larger but still fits, the quantity is negative and the uint64
subtraction wraps, so fragmentation is only maintained modulo 2^64 and can
decrease. -/
theorem rescore_fits_shrink_delta_nonneg
    (pm : PeerManager) (p : PeerId) (score i : Nat)
    (hl : alookup p pm.peerIndices = some i)
    (hi : i < pm.slots.length)
    (h2 : i + 1 < pm.slots.length)
    (hnw : (pm.slots.get ⟨i, hi⟩).start + (pm.slots.get ⟨i, hi⟩).score < W)
    (hnw2 : (pm.slots.get ⟨i, hi⟩).start + score < W)
    (hfit : (pm.slots.get ⟨i, hi⟩).start + score ≤ (pm.slots.get ⟨i + 1, h2⟩).start)
    (hshrink : score ≤ (pm.slots.get ⟨i, hi⟩).score) :
    (pm.slots.get ⟨i, hi⟩).start + score ≤ (pm.slots.get ⟨i, hi⟩).getStop ∧
    pm.rescorePeer p score = some (true, { pm with
      slots := pm.slots.set i ((pm.slots.get ⟨i, hi⟩).withScore score),
      fragmentation := (pm.fragmentation +
        ((pm.slots.get ⟨i, hi⟩).getStop - ((pm.slots.get ⟨i, hi⟩).start + score))) % W }) := by
  set s := pm.slots.get ⟨i, hi⟩ with hs
  have hstop : s.getStop = s.start + s.score := by
    simp [Slot.getStop, Nat.mod_eq_of_lt hnw]
  have hge : s.start + score ≤ s.getStop := by omega
  refine ⟨hge, ?_⟩
  have hne : ¬ (i + 1 = pm.slots.length) := by omega
  have hm2 : (s.start + score) % W = s.start + score := Nat.mod_eq_of_lt hnw2
  have hdelta : (s.getStop + W - (s.start + score)) % W
      = s.getStop - (s.start + score) := by
    have h1 : s.getStop + W - (s.start + score) = W + (s.getStop - (s.start + score)) := by
      omega
    rw [h1, Nat.add_mod_left, Nat.mod_eq_of_lt (by omega)]
  simp only [PeerManager.rescorePeer, hl, dif_pos hi, hne, if_false, dif_pos h2, ← hs,
    hm2, hfit, if_true, if_pos hfit, hdelta]

/-- Witness for C5 (amended): shrinking peer 1 from score 5 to 3 in the
state after add(1,10); add(2,20); rescore(1,5) adds the non-negative delta
5 − 3 = 2 to fragmentation. -/
theorem rescore_fits_shrink_delta_nonneg_witness :
    PeerManager.rescorePeer ⟨[⟨0, 5, 1⟩, ⟨10, 20, 2⟩], [(1, 0), (2, 1)], 30, 5⟩ 1 3
      = some (true, ⟨[⟨0, 3, 1⟩, ⟨10, 20, 2⟩], [(1, 0), (2, 1)], 30, 7⟩) := by
  have h := rescore_fits_shrink_delta_nonneg
    ⟨[⟨0, 5, 1⟩, ⟨10, 20, 2⟩], [(1, 0), (2, 1)], 30, 5⟩ 1 3 0
    (by decide) (by decide) (by decide) (by decide) (by decide) (by decide) (by decide)
  exact h.2.trans (by decide)

/-- Counterexample to C6: after add(1,10); add(2,20); rescore(1,5) the code
takes the interior fits-in-place branch (0 + 5 ≤ 10), not the tombstone
path: slot 0 stays live for peer 1 with score 5, no tail slot is appended
(still 2 slots), slotCount is 30 (not 35) and fragmentation is 5 (not 10). -/
theorem scenario4_cex :
    runOps PeerManager.empty [.add 1 10, .add 2 20, .rescore 1 5]
      = some ⟨[⟨0, 5, 1⟩, ⟨10, 20, 2⟩], [(1, 0), (2, 1)], 30, 5⟩ ∧
    (1 : PeerId) ≠ NO_PEER ∧ (2 : Nat) ≠ 3 ∧ (30 : Nat) ≠ 35 ∧ (5 : Nat) ≠ 10 := by
  decide

/-- Claim C6 (amended): starting empty, after add(1,10); add(2,20);
rescore(1,5) the fits-in-place branch applies (new stop 5 ≤ next start 10):
slot 0 becomes (0,5,1) in place, slots are [(0,5,1),(10,20,2)], slotCount
stays 30 and fragmentation becomes 5; a subsequent compact() reclaims 5,
yielding slots [(0,5,1),(5,20,2)] and slotCount 25. -/
theorem scenario4_actual :
    runOps PeerManager.empty [.add 1 10, .add 2 20, .rescore 1 5]
      = some ⟨[⟨0, 5, 1⟩, ⟨10, 20, 2⟩], [(1, 0), (2, 1)], 30, 5⟩ ∧
    PeerManager.compact ⟨[⟨0, 5, 1⟩, ⟨10, 20, 2⟩], [(1, 0), (2, 1)], 30, 5⟩
      = some (5, ⟨[⟨0, 5, 1⟩, ⟨5, 20, 2⟩], [(1, 0), (2, 1)], 25, 0⟩) := by
  decide

/-- Counterexample to C8: in the reachable state holding peer 1, the call
addPeer(1, 5) does not return a DuplicatePeer error to the caller: the
emplace fails and assert(inserted.second) aborts the program (modelled as
none, i.e. no value is ever returned). -/
theorem addPeer_duplicate_cex :
    runOps PeerManager.empty [.add 1 10] = some ⟨[⟨0, 10, 1⟩], [(1, 0)], 10, 0⟩ ∧
    PeerManager.addPeer ⟨[⟨0, 10, 1⟩], [(1, 0)], 10, 0⟩ 1 5 = none := by
  decide

/-- Claim C8 (amended): for every state and every peer id p already present
in the peer index, addPeer(p, score) hits the failing
assert(inserted.second) and aborts the program (fatal; modelled as none);
no DuplicatePeer error value is reported to the caller. -/
theorem addPeer_duplicate_aborts
    (pm : PeerManager) (p : PeerId) (score i : Nat)
    (h : alookup p pm.peerIndices = some i) :
    pm.addPeer p score = none := by
  simp [PeerManager.addPeer, h]

/-- Witness for C8 (amended): adding peer 1 again after add(1,10) aborts. -/
theorem addPeer_duplicate_aborts_witness :
    PeerManager.addPeer ⟨[⟨0, 10, 1⟩], [(1, 0)], 10, 0⟩ 1 5 = none :=
  addPeer_duplicate_aborts ⟨[⟨0, 10, 1⟩], [(1, 0)], 10, 0⟩ 1 5 0 (by decide)

/-- Counterexample to C9: at a state with slotCount = 2^64 − 1 (so that
slotCount + score exceeds 2^64 for score = 2^32 − 1), addPeer(3, 2^32 − 1)
does not fail with an Overflow error and does not leave the state unchanged:
it succeeds, appends the slot and wraps slotCount to 2^32 − 2. -/
theorem addPeer_overflow_cex :
    PeerManager.addPeer
        ⟨[⟨0, 5, 1⟩, ⟨W - 2 ^ 32, 2 ^ 32 - 1, 2⟩], [(1, 0), (2, 1)], W - 1, 0⟩
        3 (2 ^ 32 - 1)
      = some (3, ⟨[⟨0, 5, 1⟩, ⟨W - 2 ^ 32, 2 ^ 32 - 1, 2⟩, ⟨W - 1, 2 ^ 32 - 1, 3⟩],
          [(1, 0), (2, 1), (3, 2)], 2 ^ 32 - 2, 0⟩) ∧
    W < (W - 1) + (2 ^ 32 - 1) ∧ (2 ^ 32 - 2 : Nat) ≠ W - 1 := by
  decide

/-- Claim C9 (amended): addPeer performs no overflow detection: for every
state and score with p absent from the index — also when slotCount + score
exceeds 2^64 — it succeeds, appends the slot (slotCount, score, p) and sets
slotCount := (slotCount + score) mod 2^64, silently wrapping. -/
theorem addPeer_wraps_on_overflow
    (pm : PeerManager) (p : PeerId) (score : Nat)
    (h : alookup p pm.peerIndices = none) :
    pm.addPeer p score = some (p,
      { slots := pm.slots ++ [⟨pm.slotCount, score, p⟩],
        peerIndices := pm.peerIndices ++ [(p, pm.slots.length)],
        slotCount := (pm.slotCount + score) % W,
        fragmentation := pm.fragmentation }) := by
  simp [PeerManager.addPeer, h]

/-- Witness for C9 (amended): the overflowing add at slotCount = 2^64 − 1
succeeds and wraps slotCount to 2^32 − 2. -/
theorem addPeer_wraps_on_overflow_witness :
    PeerManager.addPeer
        ⟨[⟨0, 5, 1⟩, ⟨W - 2 ^ 32, 2 ^ 32 - 1, 2⟩], [(1, 0), (2, 1)], W - 1, 0⟩
        3 (2 ^ 32 - 1)
      = some (3, ⟨[⟨0, 5, 1⟩, ⟨W - 2 ^ 32, 2 ^ 32 - 1, 2⟩, ⟨W - 1, 2 ^ 32 - 1, 3⟩],
          [(1, 0), (2, 1), (3, 2)], 2 ^ 32 - 2, 0⟩) := by
  have h := addPeer_wraps_on_overflow
    ⟨[⟨0, 5, 1⟩, ⟨W - 2 ^ 32, 2 ^ 32 - 1, 2⟩], [(1, 0), (2, 1)], W - 1, 0⟩
    3 (2 ^ 32 - 1) (by decide)
  exact h.trans (by decide)

/-!
Association-list lemmas for the peer-index model.
-/

theorem alookup_cons (p : PeerId) (e : PeerId × Nat) (t : List (PeerId × Nat)) :
    alookup p (e :: t) = if e.1 = p then some e.2 else alookup p t := rfl

theorem alookup_append_of_none {p : PeerId} {l1 l2 : List (PeerId × Nat)}
    (h : alookup p l1 = none) : alookup p (l1 ++ l2) = alookup p l2 := by
  induction l1 with
  | nil => rfl
  | cons e t ih =>
    rw [alookup_cons] at h
    rw [List.cons_append, alookup_cons]
    by_cases he : e.1 = p
    · rw [if_pos he] at h
      exact Option.noConfusion h
    · rw [if_neg he] at h
      rw [if_neg he]
      exact ih h

theorem alookup_append_of_some {p : PeerId} {v : Nat} {l1 l2 : List (PeerId × Nat)}
    (h : alookup p l1 = some v) : alookup p (l1 ++ l2) = some v := by
  induction l1 with
  | nil => simp [alookup] at h
  | cons e t ih =>
    by_cases he : e.1 = p
    · simp only [alookup, he, if_true] at h ⊢
      exact h
    · simp only [alookup, he, if_false] at h ⊢
      exact ih h

theorem alookup_eq_none_iff {p : PeerId} {l : List (PeerId × Nat)} :
    alookup p l = none ↔ p ∉ l.map Prod.fst := by
  induction l with
  | nil => simp [alookup]
  | cons e t ih =>
    by_cases he : e.1 = p
    · simp [alookup, he]
    · simp [alookup, he, ih, Ne.symm he]

theorem mem_of_alookup {p : PeerId} {v : Nat} {l : List (PeerId × Nat)}
    (h : alookup p l = some v) : (p, v) ∈ l := by
  induction l with
  | nil => simp [alookup] at h
  | cons e t ih =>
    by_cases he : e.1 = p
    · simp only [alookup, he, if_true, Option.some.injEq] at h
      subst h
      rw [← he]
      exact List.mem_cons_self e t
    · simp only [alookup, he, if_false] at h
      exact List.mem_cons_of_mem e (ih h)

theorem alookup_of_mem_nodup {p : PeerId} {v : Nat} {l : List (PeerId × Nat)}
    (hnd : (l.map Prod.fst).Nodup) (h : (p, v) ∈ l) : alookup p l = some v := by
  induction l with
  | nil => simp at h
  | cons e t ih =>
    rw [List.map_cons, List.nodup_cons] at hnd
    rcases List.mem_cons.mp h with h1 | h1
    · subst h1
      simp [alookup]
    · have hne : e.1 ≠ p := by
        intro hc
        exact hnd.1 (hc ▸ (List.mem_map.mpr ⟨(p, v), h1, rfl⟩))
      simp only [alookup, hne, if_false]
      exact ih hnd.2 h1

theorem aerase_sublist (p : PeerId) (l : List (PeerId × Nat)) :
    (aerase p l).Sublist l := by
  induction l with
  | nil => simp [aerase]
  | cons e t ih =>
    by_cases he : e.1 = p
    · simp only [aerase, he, if_true]
      exact List.sublist_cons_self e t
    · simp only [aerase, he, if_false]
      exact ih.cons₂ e

theorem nodup_aerase {p : PeerId} {l : List (PeerId × Nat)}
    (h : (l.map Prod.fst).Nodup) : ((aerase p l).map Prod.fst).Nodup :=
  (((aerase_sublist p l).map Prod.fst).nodup h)

theorem alookup_aerase_self {p : PeerId} {l : List (PeerId × Nat)}
    (hnd : (l.map Prod.fst).Nodup) : alookup p (aerase p l) = none := by
  induction l with
  | nil => rfl
  | cons e t ih =>
    rw [List.map_cons, List.nodup_cons] at hnd
    by_cases he : e.1 = p
    · simp only [aerase, he, if_true]
      rw [alookup_eq_none_iff]
      exact he ▸ hnd.1
    · simp only [aerase, he, if_false, alookup, if_neg he]
      exact ih hnd.2

theorem alookup_aerase_ne {p q : PeerId} {l : List (PeerId × Nat)}
    (hne : q ≠ p) : alookup q (aerase p l) = alookup q l := by
  induction l with
  | nil => rfl
  | cons e t ih =>
    by_cases he : e.1 = p
    · simp only [aerase, he, if_true, alookup_cons]
      rw [if_neg (fun hc : p = q => hne hc.symm)]
    · simp only [aerase, he, if_false, alookup_cons]
      by_cases hq : e.1 = q
      · rw [if_pos hq, if_pos hq]
      · rw [if_neg hq, if_neg hq]
        exact ih

theorem mem_aerase_ne {e : PeerId × Nat} {p : PeerId} {l : List (PeerId × Nat)}
    (hnd : (l.map Prod.fst).Nodup) (h : e ∈ aerase p l) : e ∈ l ∧ e.1 ≠ p := by
  refine ⟨(aerase_sublist p l).mem h, ?_⟩
  intro hc
  have h1 : alookup e.1 (aerase p l) = some e.2 :=
    alookup_of_mem_nodup (nodup_aerase hnd) h
  rw [hc, alookup_aerase_self hnd] at h1
  exact Option.noConfusion h1

theorem alookup_aset_self {p : PeerId} {v : Nat} {l : List (PeerId × Nat)} :
    alookup p (aset p v l) = some v := by
  induction l with
  | nil => simp [aset, alookup]
  | cons e t ih =>
    by_cases he : e.1 = p
    · simp [aset, he, alookup]
    · simp only [aset, he, if_false, alookup, if_neg he]
      exact ih

theorem alookup_aset_ne {p q : PeerId} {v : Nat} {l : List (PeerId × Nat)}
    (hne : q ≠ p) : alookup q (aset p v l) = alookup q l := by
  induction l with
  | nil =>
    show (if p = q then some v else none) = none
    rw [if_neg (fun hc : p = q => hne hc.symm)]
  | cons e t ih =>
    by_cases he : e.1 = p
    · simp only [aset, he, if_true, alookup_cons]
      rw [if_neg (fun hc : p = q => hne hc.symm), if_neg (fun hc : p = q => hne hc.symm)]
    · simp only [aset, he, if_false, alookup_cons]
      by_cases hq : e.1 = q
      · rw [if_pos hq, if_pos hq]
      · rw [if_neg hq, if_neg hq]
        exact ih

theorem mem_aset {e : PeerId × Nat} {p : PeerId} {v : Nat} {l : List (PeerId × Nat)}
    (h : e ∈ aset p v l) : e = (p, v) ∨ e ∈ l := by
  induction l with
  | nil => simpa [aset] using h
  | cons f t ih =>
    by_cases hf : f.1 = p
    · simp only [aset, hf, if_true] at h
      rcases List.mem_cons.mp h with h1 | h1
      · exact Or.inl h1
      · exact Or.inr (List.mem_cons_of_mem f h1)
    · simp only [aset, hf, if_false] at h
      rcases List.mem_cons.mp h with h1 | h1
      · exact Or.inr (h1 ▸ List.mem_cons_self f t)
      · rcases ih h1 with h2 | h2
        · exact Or.inl h2
        · exact Or.inr (List.mem_cons_of_mem f h2)

theorem map_fst_aset_of_mem {p : PeerId} {v w : Nat} {l : List (PeerId × Nat)}
    (h : alookup p l = some w) : (aset p v l).map Prod.fst = l.map Prod.fst := by
  induction l with
  | nil => simp [alookup] at h
  | cons e t ih =>
    by_cases he : e.1 = p
    · simp [aset, he]
    · simp only [alookup, he, if_false] at h
      simp only [aset, he, if_false, List.map_cons]
      rw [ih h]

/-!
Slot arithmetic and sortedness lemmas.
-/

theorem getStop_eq {s : Slot} (h : s.start + s.score < W) :
    s.getStop = s.start + s.score := Nat.mod_eq_of_lt h

theorem getStop_lt_W (s : Slot) : s.getStop < W :=
  Nat.mod_lt _ (by norm_num [W])

theorem getElem?_dropLast {α : Type} (l : List α) (j : Nat) (h : j < l.length - 1) :
    l.dropLast[j]? = l[j]? := by
  rw [List.dropLast_eq_take, List.getElem?_take, if_pos h]

/-- Adjacent slots satisfy stop ≤ next start. -/
theorem sorted_adjacent {l : List Slot} (hs : SlotsSorted l) {i : Nat} {a b : Slot}
    (ha : l[i]? = some a) (hb : l[i + 1]? = some b) : a.getStop ≤ b.start := by
  obtain ⟨hia, hae⟩ := List.getElem?_eq_some.mp ha
  obtain ⟨hib, hbe⟩ := List.getElem?_eq_some.mp hb
  have h := (List.chain'_iff_get.mp hs) i (by omega)
  simp only [List.get_eq_getElem] at h
  rw [hae, hbe] at h
  exact h

/-- Adjacent sortedness propagates: the stop of slot i is at most the start
of any later slot. -/
theorem sorted_rel_aux {l : List Slot} (hs : SlotsSorted l) (hw : NoWrap l) :
    ∀ d i a b, l[i]? = some a → l[i + d + 1]? = some b → a.getStop ≤ b.start := by
  intro d
  induction d with
  | zero => exact fun i a b ha hb => sorted_adjacent hs ha hb
  | succ d ih =>
    intro i a b ha hb
    have hib := (List.getElem?_eq_some.mp hb).1
    have hmid : i + d + 1 < l.length := by omega
    have hm : l[i + d + 1]? = some l[i + d + 1] := List.getElem?_eq_getElem hmid
    have h1 : a.getStop ≤ (l[i + d + 1]).start := ih i a _ ha hm
    have h2 : (l[i + d + 1]).start ≤ (l[i + d + 1]).getStop := by
      have hx := hw _ (List.getElem_mem hmid)
      rw [getStop_eq hx]
      omega
    have h3 : (l[i + d + 1]).getStop ≤ b.start := sorted_adjacent hs hm hb
    omega

/-- The stop of an earlier slot is at most the start of a later slot. -/
theorem sorted_rel {l : List Slot} (hs : SlotsSorted l) (hw : NoWrap l)
    {i j : Nat} {a b : Slot} (hij : i < j)
    (ha : l[i]? = some a) (hb : l[j]? = some b) : a.getStop ≤ b.start := by
  have hb' : l[i + (j - i - 1) + 1]? = some b := by
    rw [show i + (j - i - 1) + 1 = j from by omega]
    exact hb
  exact sorted_rel_aux hs hw (j - i - 1) i a b ha hb'

/-- Every slot's stop is bounded by the last stop. -/
theorem getStop_le_lastStop {l : List Slot} (hs : SlotsSorted l) (hw : NoWrap l)
    {j : Nat} {a : Slot} (ha : l[j]? = some a) : a.getStop ≤ lastStop l := by
  obtain ⟨hj, hae⟩ := List.getElem?_eq_some.mp ha
  have hlast : l.getLast? = some (l[l.length - 1]) := by
    rw [List.getLast?_eq_getElem?]
    exact List.getElem?_eq_getElem (by omega)
  by_cases hj1 : j = l.length - 1
  · subst hj1
    rw [lastStop, hlast]
    show a.getStop ≤ (l[l.length - 1]).getStop
    rw [hae]
  · have hlt : j < l.length - 1 := by omega
    have h1 : a.getStop ≤ (l[l.length - 1]).start :=
      sorted_rel hs hw hlt ha (List.getElem?_eq_getElem (by omega))
    have h2 := hw _ (List.getElem_mem (show l.length - 1 < l.length by omega))
    rw [lastStop, hlast]
    show a.getStop ≤ (l[l.length - 1]).getStop
    rw [getStop_eq h2]
    omega

/-- Replacing slot i, keeping its start and respecting the next start,
preserves sortedness. -/
theorem sorted_set {l : List Slot} {i : Nat} {a a' : Slot} (hs : SlotsSorted l)
    (ha : l[i]? = some a) (hstart : a'.start = a.start)
    (hstop : ∀ b, l[i + 1]? = some b → a'.getStop ≤ b.start) :
    SlotsSorted (l.set i a') := by
  obtain ⟨hi, hae⟩ := List.getElem?_eq_some.mp ha
  rw [SlotsSorted, List.chain'_iff_get] at hs ⊢
  intro k hk
  have hk' : k < l.length - 1 := by simpa using hk
  simp only [List.get_eq_getElem, List.getElem_set]
  by_cases h1 : i = k
  · rw [if_pos h1, if_neg (by omega : ¬ i = k + 1)]
    subst h1
    exact hstop _ (List.getElem?_eq_getElem (by omega))
  · rw [if_neg h1]
    by_cases h2 : i = k + 1
    · rw [if_pos h2]
      subst h2
      have h := hs k hk'
      simp only [List.get_eq_getElem] at h
      rw [hstart, ← hae]
      exact h
    · rw [if_neg h2]
      have h := hs k hk'
      simp only [List.get_eq_getElem] at h
      exact h

theorem lastStop_concat (l : List Slot) (s : Slot) :
    lastStop (l ++ [s]) = s.getStop := by
  simp [lastStop, List.getLast?_concat]

/-!
Invariant preservation under the mutations.
-/

/-- The live-slots-indexed component of the invariant, phrased on
getElem?. -/
theorem inv_live {pm : PeerManager} (hInv : Inv pm) :
    ∀ i s, pm.slots[i]? = some s → s.peer ≠ NO_PEER →
      alookup s.peer pm.peerIndices = some i := by
  intro i s hsi hlive
  obtain ⟨hi, hse⟩ := List.getElem?_eq_some.mp hsi
  have h := hInv.2.2.2.2.2 i hi
  simp only [List.get_eq_getElem, hse] at h
  exact h hlive

/-- Conversely, the getElem? phrasing yields the get-based component. -/
theorem live_component {l : List Slot} {idx : List (PeerId × Nat)}
    (h : ∀ i s, l[i]? = some s → s.peer ≠ NO_PEER → alookup s.peer idx = some i) :
    ∀ i, ∀ hh : i < l.length, (l.get ⟨i, hh⟩).peer ≠ NO_PEER →
      alookup (l.get ⟨i, hh⟩).peer idx = some i := by
  intro i hh
  simp only [List.get_eq_getElem]
  exact h i _ (List.getElem?_eq_getElem hh)

/-- An index entry's position is always inside the slot array. -/
theorem inv_entry_lt {pm : PeerManager} (hInv : Inv pm) {e : PeerId × Nat}
    (he : e ∈ pm.peerIndices) : e.2 < pm.slots.length := by
  have hpt := (hInv.2.2.2.2.1 e he).2
  cases hq : pm.slots[e.2]? with
  | none => rw [hq] at hpt; simp at hpt
  | some v => exact (List.getElem?_eq_some.mp hq).1

theorem inv_empty : Inv PeerManager.empty := by
  refine ⟨List.chain'_nil, ?_, rfl, List.nodup_nil, ?_, ?_⟩
  · intro s hsm
    exact absurd hsm (List.not_mem_nil s)
  · intro e he
    exact absurd he (List.not_mem_nil e)
  · intro i hh
    exact absurd hh (by simp [PeerManager.empty])

theorem inv_addPeer {pm : PeerManager} {p : PeerId} {score : Nat}
    (hInv : Inv pm) (hfresh : alookup p pm.peerIndices = none)
    (hp : p ≠ NO_PEER) (hov : pm.slotCount + score < W) :
    ∃ pm', pm.addPeer p score = some (p, pm') ∧ Inv pm' := by
  obtain ⟨hs, hw, hc, hnd, hidx, hlive⟩ := hInv
  refine ⟨{ slots := pm.slots ++ [⟨pm.slotCount, score, p⟩],
            peerIndices := pm.peerIndices ++ [(p, pm.slots.length)],
            slotCount := (pm.slotCount + score) % W,
            fragmentation := pm.fragmentation },
          by simp [PeerManager.addPeer, hfresh], ?_, ?_, ?_, ?_, ?_, ?_⟩
  · rw [SlotsSorted, List.chain'_append]
    refine ⟨hs, List.chain'_singleton _, ?_⟩
    intro x hx y hy
    rw [Option.mem_def] at hx
    simp only [List.head?_cons, Option.mem_def, Option.some.injEq] at hy
    subst hy
    show x.getStop ≤ pm.slotCount
    rw [hc, lastStop, hx]
  · intro t ht
    rcases List.mem_append.mp ht with h1 | h1
    · exact hw t h1
    · have : t = ⟨pm.slotCount, score, p⟩ := by simpa using h1
      subst this
      exact hov
  · show (pm.slotCount + score) % W = lastStop _
    rw [lastStop_concat]
    rfl
  · rw [List.map_append, List.nodup_append]
    refine ⟨hnd, by simp, ?_⟩
    intro q hq hq2
    simp only [List.map_cons, List.map_nil, List.mem_singleton] at hq2
    subst hq2
    exact (alookup_eq_none_iff.mp hfresh) hq
  · intro e he
    rcases List.mem_append.mp he with h1 | h1
    · obtain ⟨hne, hpt⟩ := hidx e h1
      have hlt : e.2 < pm.slots.length := by
        cases hq : pm.slots[e.2]? with
        | none => rw [hq] at hpt; simp at hpt
        | some v => exact (List.getElem?_eq_some.mp hq).1
      refine ⟨hne, ?_⟩
      rw [List.getElem?_append_left hlt]
      exact hpt
    · have : e = (p, pm.slots.length) := by simpa using h1
      subst this
      refine ⟨hp, ?_⟩
      rw [List.getElem?_concat_length]
      rfl
  · apply live_component
    intro i t hti hlt
    by_cases hi : i < pm.slots.length
    · rw [List.getElem?_append_left hi] at hti
      have h := inv_live ⟨hs, hw, hc, hnd, hidx, hlive⟩ i t hti hlt
      exact alookup_append_of_some h
    · have hil : i = pm.slots.length := by
        by_contra hne
        have : pm.slots.length + 1 ≤ i := by
          have := List.getElem?_eq_some.mp hti
          simp at this
          omega
        rw [List.getElem?_append_right (by omega)] at hti
        have := List.getElem?_eq_some.mp hti
        obtain ⟨hb, _⟩ := this
        simp at hb
        omega
      subst hil
      rw [List.getElem?_concat_length] at hti
      have ht' : t = ⟨pm.slotCount, score, p⟩ := by
        have := hti
        simp only [Option.some.injEq] at this
        exact this.symm
      subst ht'
      show alookup p _ = _
      rw [alookup_append_of_none hfresh]
      simp [alookup]

theorem lastStop_set_ne {l : List Slot} {i : Nat} {a : Slot}
    (h : i + 1 < l.length) : lastStop (l.set i a) = lastStop l := by
  rw [lastStop, lastStop, List.getLast?_eq_getElem?, List.getLast?_eq_getElem?,
    List.length_set, List.getElem?_set_ne (by omega : i ≠ l.length - 1)]

theorem inv_removePeer {pm : PeerManager} (p : PeerId) (hInv : Inv pm) :
    ∃ b pm', pm.removePeer p = some (b, pm') ∧ Inv pm' := by
  obtain ⟨hs, hw, hc, hnd, hidx, hlive⟩ := hInv
  have hInv' : Inv pm := ⟨hs, hw, hc, hnd, hidx, hlive⟩
  cases hl : alookup p pm.peerIndices with
  | none =>
    refine ⟨false, pm, ?_, hInv'⟩
    simp [PeerManager.removePeer, hl]
  | some i =>
    have hmem : (p, i) ∈ pm.peerIndices := mem_of_alookup hl
    have hi : i < pm.slots.length := inv_entry_lt hInv' hmem
    have hpne : p ≠ NO_PEER := (hidx _ hmem).1
    have hip : (pm.slots[i]?).map Slot.peer = some p := (hidx _ hmem).2
    have hti : pm.slots[i]? = some pm.slots[i] := List.getElem?_eq_getElem hi
    have htp : (pm.slots[i]).peer = p := by
      rw [hti] at hip
      simpa using hip
    have huniq : ∀ j t', pm.slots[j]? = some t' → t'.peer = p → j = i := by
      intro j t' htj htp'
      have h1 := inv_live hInv' j t' htj (htp' ▸ hpne)
      rw [htp', hl] at h1
      exact (Option.some.inj h1).symm
    by_cases hlast : i + 1 = pm.slots.length
    · refine ⟨true, { slots := pm.slots.dropLast,
                      peerIndices := aerase p pm.peerIndices,
                      slotCount := lastStop pm.slots.dropLast,
                      fragmentation := pm.fragmentation },
        ?_, ?_, ?_, rfl, nodup_aerase hnd, ?_, ?_⟩
      · simp only [PeerManager.removePeer, hl]
        rw [dif_pos hi, if_pos hlast]
      · exact hs.prefix (List.dropLast_prefix _)
      · intro s hsm
        exact hw s (List.Sublist.mem hsm (List.dropLast_sublist _))
      · intro e he
        obtain ⟨heo, hep⟩ := mem_aerase_ne hnd he
        obtain ⟨hne, hpt⟩ := hidx e heo
        have he2 : e.2 ≠ i := by
          intro hc2
          rw [hc2, hip] at hpt
          exact hep (Option.some.inj hpt).symm
        have hlt2 : e.2 < pm.slots.length - 1 := by
          have := inv_entry_lt hInv' heo
          omega
        refine ⟨hne, ?_⟩
        rw [getElem?_dropLast _ _ hlt2]
        exact hpt
      · apply live_component
        intro j t' htj hlv
        have hjb : j < pm.slots.length - 1 := by
          have := (List.getElem?_eq_some.mp htj).1
          rwa [List.length_dropLast] at this
        rw [getElem?_dropLast _ _ hjb] at htj
        have h1 := inv_live hInv' j t' htj hlv
        have hne2 : t'.peer ≠ p := by
          intro hc2
          have := huniq j t' htj hc2
          omega
        rw [alookup_aerase_ne hne2]
        exact h1
    · have hi1 : i + 1 < pm.slots.length := by omega
      refine ⟨true, { slots := pm.slots.set i
                        ((pm.slots.get ⟨i, hi⟩).withPeerId NO_PEER),
                      peerIndices := aerase p pm.peerIndices,
                      slotCount := pm.slotCount,
                      fragmentation :=
                        (pm.fragmentation + (pm.slots.get ⟨i, hi⟩).score) % W },
        ?_, ?_, ?_, ?_, nodup_aerase hnd, ?_, ?_⟩
      · simp only [PeerManager.removePeer, hl]
        rw [dif_pos hi, if_neg hlast]
      · refine sorted_set hs hti rfl ?_
        intro b hb
        have h2 := sorted_adjacent hs hti hb
        exact h2
      · intro s hsm
        rcases List.mem_or_eq_of_mem_set hsm with h1 | h1
        · exact hw s h1
        · subst h1
          have h2 := hw _ (List.getElem_mem hi)
          exact h2
      · show pm.slotCount = lastStop _
        rw [lastStop_set_ne hi1]
        exact hc
      · intro e he
        obtain ⟨heo, hep⟩ := mem_aerase_ne hnd he
        obtain ⟨hne, hpt⟩ := hidx e heo
        have he2 : e.2 ≠ i := by
          intro hc2
          rw [hc2, hip] at hpt
          exact hep (Option.some.inj hpt).symm
        refine ⟨hne, ?_⟩
        rw [List.getElem?_set_ne (fun hc2 => he2 hc2.symm)]
        exact hpt
      · apply live_component
        intro j t' htj hlv
        by_cases hj : j = i
        · subst hj
          rw [List.getElem?_set_self hi] at htj
          have : t' = (pm.slots.get ⟨j, hi⟩).withPeerId NO_PEER := by
            exact (Option.some.inj htj).symm
          rw [this] at hlv
          exact absurd rfl hlv
        · rw [List.getElem?_set_ne (fun hc2 => hj hc2.symm)] at htj
          have h1 := inv_live hInv' j t' htj hlv
          have hne2 : t'.peer ≠ p := fun hc2 => hj (huniq j t' htj hc2)
          rw [alookup_aerase_ne hne2]
          exact h1

theorem lastStop_set_last {l : List Slot} {i : Nat} {a : Slot}
    (h : i + 1 = l.length) : lastStop (l.set i a) = a.getStop := by
  have hi : i < l.length := by omega
  rw [lastStop, List.getLast?_eq_getElem?, List.length_set,
    show l.length - 1 = i from by omega, List.getElem?_set_self hi]

theorem mem_aset_nodup {e : PeerId × Nat} {p : PeerId} {v : Nat}
    {l : List (PeerId × Nat)} (hnd : (l.map Prod.fst).Nodup)
    (h : e ∈ aset p v l) : e = (p, v) ∨ (e ∈ l ∧ e.1 ≠ p) := by
  induction l with
  | nil =>
    simp only [aset, List.mem_singleton] at h
    exact Or.inl h
  | cons f t ih =>
    rw [List.map_cons, List.nodup_cons] at hnd
    by_cases hf : f.1 = p
    · simp only [aset, hf, if_true] at h
      rcases List.mem_cons.mp h with h1 | h1
      · exact Or.inl h1
      · refine Or.inr ⟨List.mem_cons_of_mem f h1, ?_⟩
        intro hc
        exact hnd.1 (hf ▸ hc ▸ List.mem_map.mpr ⟨e, h1, rfl⟩)
    · simp only [aset, hf, if_false] at h
      rcases List.mem_cons.mp h with h1 | h1
      · exact Or.inr ⟨h1 ▸ List.mem_cons_self f t, h1 ▸ hf⟩
      · rcases ih hnd.2 h1 with h2 | h2
        · exact Or.inl h2
        · exact Or.inr ⟨List.mem_cons_of_mem f h2.1, h2.2⟩

theorem inv_rescorePeer {pm : PeerManager} {p : PeerId} {score : Nat}
    (hInv : Inv pm)
    (hv : ∀ i, alookup p pm.peerIndices = some i →
      ∀ hi : i < pm.slots.length,
        (pm.slots.get ⟨i, hi⟩).start + score < W ∧ pm.slotCount + score < W) :
    ∃ b pm', pm.rescorePeer p score = some (b, pm') ∧ Inv pm' := by
  obtain ⟨hs, hw, hc, hnd, hidx, hlive⟩ := hInv
  have hInv' : Inv pm := ⟨hs, hw, hc, hnd, hidx, hlive⟩
  cases hl : alookup p pm.peerIndices with
  | none =>
    refine ⟨false, pm, ?_, hInv'⟩
    simp [PeerManager.rescorePeer, hl]
  | some i =>
    have hmem : (p, i) ∈ pm.peerIndices := mem_of_alookup hl
    have hi : i < pm.slots.length := inv_entry_lt hInv' hmem
    have hpne : p ≠ NO_PEER := (hidx _ hmem).1
    have hip : (pm.slots[i]?).map Slot.peer = some p := (hidx _ hmem).2
    have hti : pm.slots[i]? = some pm.slots[i] := List.getElem?_eq_getElem hi
    have htp : (pm.slots[i]).peer = p := by
      rw [hti] at hip
      simpa using hip
    have huniq : ∀ j t', pm.slots[j]? = some t' → t'.peer = p → j = i := by
      intro j t' htj htp'
      have h1 := inv_live hInv' j t' htj (htp' ▸ hpne)
      rw [htp', hl] at h1
      exact (Option.some.inj h1).symm
    obtain ⟨hnw2, hov⟩ := hv i hl hi
    have hm2 : ((pm.slots[i]).start + score) % W = (pm.slots[i]).start + score :=
      Nat.mod_eq_of_lt hnw2
    by_cases hlast : i + 1 = pm.slots.length
    · -- last-slot fast path
      refine ⟨true, { pm with
          slots := pm.slots.set i ((pm.slots.get ⟨i, hi⟩).withScore score),
          slotCount := ((pm.slots.get ⟨i, hi⟩).withScore score).getStop },
        ?_, ?_, ?_, ?_, hnd, ?_, ?_⟩
      · simp only [PeerManager.rescorePeer, hl, dif_pos hi, if_pos hlast]
      · refine sorted_set hs hti rfl ?_
        intro b hb
        rw [List.getElem?_eq_none (by omega : pm.slots.length ≤ i + 1)] at hb
        exact Option.noConfusion hb
      · intro t ht
        rcases List.mem_or_eq_of_mem_set ht with h1 | h1
        · exact hw t h1
        · subst h1
          show (pm.slots[i]).start + score < W
          exact hnw2
      · show ((pm.slots.get ⟨i, hi⟩).withScore score).getStop = lastStop _
        rw [lastStop_set_last hlast]
      · intro e he
        obtain ⟨hne, hpt⟩ := hidx e he
        refine ⟨hne, ?_⟩
        by_cases he2 : e.2 = i
        · subst he2
          rw [List.getElem?_set_self hi]
          rw [hti] at hpt
          exact hpt
        · rw [List.getElem?_set_ne (fun hc2 => he2 hc2.symm)]
          exact hpt
      · apply live_component
        intro j t' htj hlv
        by_cases hj : j = i
        · subst hj
          rw [List.getElem?_set_self hi] at htj
          have ht' : t' = (pm.slots.get ⟨j, hi⟩).withScore score :=
            (Option.some.inj htj).symm
          subst ht'
          show alookup (pm.slots[j]).peer _ = _
          rw [htp]
          exact hl
        · rw [List.getElem?_set_ne (fun hc2 => hj hc2.symm)] at htj
          exact inv_live hInv' j t' htj hlv
    · have h2 : i + 1 < pm.slots.length := by omega
      have hnext : pm.slots[i + 1]? = some pm.slots[i + 1] :=
        List.getElem?_eq_getElem h2
      by_cases hfit :
          ((pm.slots.get ⟨i, hi⟩).start + score) % W ≤ (pm.slots.get ⟨i + 1, h2⟩).start
      · -- interior, fits in place
        refine ⟨true, { pm with
            slots := pm.slots.set i ((pm.slots.get ⟨i, hi⟩).withScore score),
            fragmentation := (pm.fragmentation +
              ((pm.slots.get ⟨i, hi⟩).getStop + W -
                ((pm.slots.get ⟨i, hi⟩).start + score) % W) % W) % W },
          ?_, ?_, ?_, ?_, hnd, ?_, ?_⟩
        · simp only [PeerManager.rescorePeer, hl, dif_pos hi, if_neg hlast,
            dif_pos h2, if_pos hfit]
        · refine sorted_set hs hti rfl ?_
          intro b hb
          rw [hnext] at hb
          have hb' : b = pm.slots[i + 1] := (Option.some.inj hb).symm
          subst hb'
          show ((pm.slots[i]).withScore score).getStop ≤ (pm.slots[i + 1]).start
          show ((pm.slots[i]).start + score) % W ≤ (pm.slots[i + 1]).start
          exact hfit
        · intro t ht
          rcases List.mem_or_eq_of_mem_set ht with h1 | h1
          · exact hw t h1
          · subst h1
            show (pm.slots[i]).start + score < W
            exact hnw2
        · show pm.slotCount = lastStop _
          rw [lastStop_set_ne h2]
          exact hc
        · intro e he
          obtain ⟨hne, hpt⟩ := hidx e he
          refine ⟨hne, ?_⟩
          by_cases he2 : e.2 = i
          · subst he2
            rw [List.getElem?_set_self hi]
            rw [hti] at hpt
            exact hpt
          · rw [List.getElem?_set_ne (fun hc2 => he2 hc2.symm)]
            exact hpt
        · apply live_component
          intro j t' htj hlv
          by_cases hj : j = i
          · subst hj
            rw [List.getElem?_set_self hi] at htj
            have ht' : t' = (pm.slots.get ⟨j, hi⟩).withScore score :=
              (Option.some.inj htj).symm
            subst ht'
            show alookup (pm.slots[j]).peer _ = _
            rw [htp]
            exact hl
          · rw [List.getElem?_set_ne (fun hc2 => hj hc2.symm)] at htj
            exact inv_live hInv' j t' htj hlv
      · -- interior, does not fit: tombstone and append
        refine ⟨true, { pm with
            slots := pm.slots.set i ((pm.slots.get ⟨i, hi⟩).withPeerId NO_PEER)
                       ++ [⟨pm.slotCount, score, p⟩],
            peerIndices := aset p pm.slots.length pm.peerIndices,
            slotCount := (pm.slotCount + score) % W,
            fragmentation := (pm.fragmentation + (pm.slots.get ⟨i, hi⟩).score) % W },
          ?_, ?_, ?_, ?_, ?_, ?_, ?_⟩
        · simp only [PeerManager.rescorePeer, hl, dif_pos hi, if_neg hlast,
            dif_pos h2, if_neg hfit]
        · rw [SlotsSorted, List.chain'_append]
          refine ⟨?_, List.chain'_singleton _, ?_⟩
          · have hss : SlotsSorted (pm.slots.set i
                ((pm.slots.get ⟨i, hi⟩).withPeerId NO_PEER)) :=
              sorted_set hs hti rfl (fun b hb => by
                have h3 := sorted_adjacent hs hti hb
                exact h3)
            exact hss
          · intro x hx y hy
            rw [Option.mem_def] at hx
            simp only [List.head?_cons, Option.mem_def, Option.some.injEq] at hy
            subst hy
            show x.getStop ≤ pm.slotCount
            have hxl : pm.slots.getLast? = some x := by
              rw [List.getLast?_eq_getElem?] at hx ⊢
              rw [List.length_set] at hx
              rw [List.getElem?_set_ne (by omega : i ≠ pm.slots.length - 1)] at hx
              exact hx
            have hxe : pm.slots[pm.slots.length - 1]? = some x := by
              rw [List.getLast?_eq_getElem?] at hxl
              exact hxl
            have := getStop_le_lastStop hs hw hxe
            rw [hc]
            exact this
        · intro t ht
          rcases List.mem_append.mp ht with h1 | h1
          · rcases List.mem_or_eq_of_mem_set h1 with h3 | h3
            · exact hw t h3
            · subst h3
              have h4 := hw _ (List.getElem_mem hi)
              exact h4
          · have ht' : t = ⟨pm.slotCount, score, p⟩ := by simpa using h1
            subst ht'
            exact hov
        · show (pm.slotCount + score) % W = lastStop _
          rw [lastStop_concat]
          rfl
        · rw [map_fst_aset_of_mem hl]
          exact hnd
        · intro e he
          rcases mem_aset_nodup hnd he with h1 | h1
          · subst h1
            refine ⟨hpne, ?_⟩
            have h5 : (pm.slots.set i
                ((pm.slots.get ⟨i, hi⟩).withPeerId NO_PEER)).length
                = pm.slots.length := List.length_set _ _ _
            have hcc := List.getElem?_concat_length
              (pm.slots.set i ((pm.slots.get ⟨i, hi⟩).withPeerId NO_PEER))
              (⟨pm.slotCount, score, p⟩ : Slot)
            rw [h5] at hcc
            show ((pm.slots.set i ((pm.slots.get ⟨i, hi⟩).withPeerId NO_PEER)
              ++ [(⟨pm.slotCount, score, p⟩ : Slot)])[pm.slots.length]?).map Slot.peer
              = some p
            rw [hcc]
            rfl
          · obtain ⟨heo, hep⟩ := h1
            obtain ⟨hne, hpt⟩ := hidx e heo
            have he2 : e.2 ≠ i := by
              intro hc2
              rw [hc2, hip] at hpt
              exact hep (Option.some.inj hpt).symm
            have helt : e.2 < pm.slots.length := inv_entry_lt hInv' heo
            refine ⟨hne, ?_⟩
            rw [List.getElem?_append_left (by rw [List.length_set]; exact helt),
              List.getElem?_set_ne (fun hc2 => he2 hc2.symm)]
            exact hpt
        · apply live_component
          intro j t' htj hlv
          by_cases hj : j < pm.slots.length
          · rw [List.getElem?_append_left (by rw [List.length_set]; exact hj)] at htj
            by_cases hj2 : j = i
            · subst hj2
              rw [List.getElem?_set_self hi] at htj
              have ht' : t' = (pm.slots.get ⟨j, hi⟩).withPeerId NO_PEER :=
                (Option.some.inj htj).symm
              rw [ht'] at hlv
              exact absurd rfl hlv
            · rw [List.getElem?_set_ne (fun hc2 => hj2 hc2.symm)] at htj
              have h1 := inv_live hInv' j t' htj hlv
              have hne2 : t'.peer ≠ p := fun hc2 => hj2 (huniq j t' htj hc2)
              rw [alookup_aset_ne hne2]
              exact h1
          · have hjl : j = pm.slots.length := by
              by_contra hne3
              have hlen : (pm.slots.set i ((pm.slots.get ⟨i, hi⟩).withPeerId NO_PEER)
                  ++ [(⟨pm.slotCount, score, p⟩ : Slot)]).length = pm.slots.length + 1 := by
                rw [List.length_append, List.length_set]
                rfl
              have := (List.getElem?_eq_some.mp htj).1
              rw [hlen] at this
              omega
            subst hjl
            have h5 : (pm.slots.set i
                ((pm.slots.get ⟨i, hi⟩).withPeerId NO_PEER)).length
                = pm.slots.length := List.length_set _ _ _
            have hcc := List.getElem?_concat_length
              (pm.slots.set i ((pm.slots.get ⟨i, hi⟩).withPeerId NO_PEER))
              (⟨pm.slotCount, score, p⟩ : Slot)
            rw [h5] at hcc
            rw [hcc] at htj
            have ht' : t' = ⟨pm.slotCount, score, p⟩ := (Option.some.inj htj).symm
            subst ht'
            show alookup p _ = _
            rw [alookup_aset_self]

/-!
verify() holds in every invariant state, and the invariant is preserved by
every valid mutation sequence.
-/

theorem verifySlots_of_inv {idx : List (PeerId × Nat)} :
    ∀ (t : List Slot) (i0 prev : Nat),
      List.Chain' (fun a b => a.getStop ≤ b.start) t →
      (∀ a, t.head? = some a → prev ≤ a.start) →
      (∀ j a, t[j]? = some a → a.peer ≠ NO_PEER →
        alookup a.peer idx = some (i0 + j)) →
      verifySlots idx t i0 prev = true := by
  intro t
  induction t with
  | nil => intro i0 prev _ _ _; rfl
  | cons s t ih =>
    intro i0 prev hch hprev hlook
    have hps : ¬ s.start < prev := by
      have := hprev s rfl
      omega
    rw [verifySlots, if_neg hps]
    have hch' := hch.tail
    have hprev' : ∀ a, t.head? = some a → s.getStop ≤ a.start := by
      intro a ha
      exact (List.chain'_cons'.mp hch).1 a ha
    have hlook' : ∀ j a, t[j]? = some a → a.peer ≠ NO_PEER →
        alookup a.peer idx = some (i0 + 1 + j) := by
      intro j a ha hl
      have h1 := hlook (j + 1) a (by simpa using ha) hl
      rwa [show i0 + (j + 1) = i0 + 1 + j from by omega] at h1
    by_cases hdead : s.peer = NO_PEER
    · rw [if_pos hdead]
      exact ih (i0 + 1) s.getStop hch' hprev' hlook'
    · rw [if_neg hdead]
      have h1 : alookup s.peer idx = some i0 := by
        simpa using hlook 0 s (by simp) hdead
      rw [h1]
      have h2 := ih (i0 + 1) s.getStop hch' hprev' hlook'
      simp [h2]

theorem verifyIdx_of_entries {slots : List Slot} :
    ∀ idx : List (PeerId × Nat),
      (∀ e ∈ idx, (slots[e.2]?).map Slot.peer = some e.1) →
      verifyIdx slots idx = true := by
  intro idx
  induction idx with
  | nil => intro _; rfl
  | cons e t ih =>
    intro h
    have he := h e (List.mem_cons_self e t)
    rw [verifyIdx]
    cases hq : slots[e.2]? with
    | none => rw [hq] at he; simp at he
    | some sl =>
      rw [hq] at he
      have hsl : sl.peer = e.1 := by simpa using he
      simp [hsl, ih (fun e' he' => h e' (List.mem_cons_of_mem e he'))]

theorem inv_verify {pm : PeerManager} (hInv : Inv pm) : pm.verify = true := by
  obtain ⟨hs, hw, hc, hnd, hidx, hlive⟩ := hInv
  have hInv' : Inv pm := ⟨hs, hw, hc, hnd, hidx, hlive⟩
  rw [PeerManager.verify, Bool.and_eq_true]
  constructor
  · refine verifySlots_of_inv pm.slots 0 0 hs (fun a _ => Nat.zero_le _) ?_
    intro j a ha hl
    simpa using inv_live hInv' j a ha hl
  · exact verifyIdx_of_entries _ (fun e he => (hidx e he).2)

theorem inv_step {pm : PeerManager} {op : Op} (hInv : Inv pm)
    (hv : validOp pm op = true) :
    ∃ pm', pm.applyOp op = some pm' ∧ Inv pm' := by
  cases op with
  | add p s =>
    simp only [validOp, Bool.and_eq_true, decide_eq_true_eq] at hv
    obtain ⟨⟨⟨⟨⟨hp, hplt⟩, hfresh⟩, hpos⟩, hslt⟩, hov⟩ := hv
    obtain ⟨pm', he, hi'⟩ := inv_addPeer hInv hfresh hp hov
    exact ⟨pm', by simp [PeerManager.applyOp, he], hi'⟩
  | remove p =>
    obtain ⟨b, pm', he, hi'⟩ := inv_removePeer p hInv
    exact ⟨pm', by simp [PeerManager.applyOp, he], hi'⟩
  | rescore p s =>
    have hv' : ∀ i, alookup p pm.peerIndices = some i →
        ∀ hi : i < pm.slots.length,
          (pm.slots.get ⟨i, hi⟩).start + s < W ∧ pm.slotCount + s < W := by
      intro i hl hi
      simp only [validOp, hl, List.getElem?_eq_getElem hi, Bool.and_eq_true,
        decide_eq_true_eq] at hv
      exact hv.2
    obtain ⟨b, pm', he, hi'⟩ := inv_rescorePeer hInv hv'
    exact ⟨pm', by simp [PeerManager.applyOp, he], hi'⟩

theorem runOps_prefix_inv :
    ∀ (ops : List Op) (pm : PeerManager), Inv pm → validSeq pm ops = true →
      ∀ pre, List.IsPrefix pre ops →
        ∃ pm', runOps pm pre = some pm' ∧ Inv pm' := by
  intro ops
  induction ops with
  | nil =>
    intro pm hInv _ pre hpre
    have hnil : pre = [] := List.prefix_nil.mp hpre
    subst hnil
    exact ⟨pm, rfl, hInv⟩
  | cons op ops ih =>
    intro pm hInv hval pre hpre
    rw [validSeq, Bool.and_eq_true] at hval
    obtain ⟨hv1, hv2⟩ := hval
    cases pre with
    | nil => exact ⟨pm, rfl, hInv⟩
    | cons op' pre' =>
      obtain ⟨hop, hpre'⟩ : op' = op ∧ List.IsPrefix pre' ops := by
        rcases hpre with ⟨r, hr⟩
        injection hr with h1 h2
        exact ⟨h1, ⟨r, h2⟩⟩
      subst hop
      obtain ⟨pm1, happ, hInv1⟩ := inv_step hInv hv1
      rw [happ] at hv2
      obtain ⟨pm', hrun, hInv'⟩ := ih pm1 hInv1 hv2 pre' hpre'
      refine ⟨pm', ?_, hInv'⟩
      rw [runOps, happ]
      exact hrun

/-- Every reachable state satisfies the §3 invariants. -/
theorem reachable_inv {pm : PeerManager} (h : Reachable pm) : Inv pm := by
  obtain ⟨ops, hval, hrun⟩ := h
  obtain ⟨pm', hrun', hInv'⟩ :=
    runOps_prefix_inv ops PeerManager.empty inv_empty hval ops (List.prefix_refl ops)
  rw [hrun] at hrun'
  exact (Option.some.inj hrun') ▸ hInv'

/-- Claim C2: for every finite sequence of addPeer/removePeer/rescorePeer
calls starting from the empty state — each addPeer given a fresh,
non-sentinel uint32 peer id and a positive uint32 score, and no uint64
arithmetic overflowing (validSeq) — every prefix executes without hitting an
assert and verify() returns true on its result: all §3 invariants hold after
every mutation. -/
theorem verify_after_every_prefix (ops pre : List Op)
    (hval : validSeq PeerManager.empty ops = true)
    (hpre : List.IsPrefix pre ops) :
    ∃ pm', runOps PeerManager.empty pre = some pm' ∧ pm'.verify = true := by
  obtain ⟨pm', hrun, hInv⟩ :=
    runOps_prefix_inv ops PeerManager.empty inv_empty hval pre hpre
  exact ⟨pm', hrun, inv_verify hInv⟩

/-- Witness for C2: the sequence add(1,10); add(2,20); rescore(1,5);
remove(2) is valid and verify() holds after its three-step prefix. -/
theorem verify_after_every_prefix_witness :
    validSeq PeerManager.empty
      [Op.add 1 10, Op.add 2 20, Op.rescore 1 5, Op.remove 2] = true ∧
    (runOps PeerManager.empty
      [Op.add 1 10, Op.add 2 20, Op.rescore 1 5]).map PeerManager.verify
      = some true := by
  have h := verify_after_every_prefix
    [Op.add 1 10, Op.add 2 20, Op.rescore 1 5, Op.remove 2]
    [Op.add 1 10, Op.add 2 20, Op.rescore 1 5]
    (by decide) ⟨[Op.remove 2], rfl⟩
  obtain ⟨pm', h1, h2⟩ := h
  refine ⟨by decide, ?_⟩
  rw [h1]
  simp [h2]

/-- Claim C7: removePeer behaves by case. Unknown peer: false and no
change. Peer indexed at the last slot: the slot is popped, slotCount becomes
the new last slot's stop (0 when the array became empty), fragmentation is
unchanged. Peer indexed at an interior slot: the slot's peer is replaced by
NO_PEER keeping start and score, its score is added (uint64) to
fragmentation, slotCount unchanged. In every success case the index entry
for p is erased and true is returned. Hypotheses: the index has unique keys
and in-bounds positions, as every real map state has. -/
theorem removePeer_cases (pm : PeerManager) (p : PeerId)
    (hnd : (pm.peerIndices.map Prod.fst).Nodup)
    (hbound : ∀ i, alookup p pm.peerIndices = some i → i < pm.slots.length) :
    (alookup p pm.peerIndices = none → pm.removePeer p = some (false, pm)) ∧
    (∀ i, alookup p pm.peerIndices = some i → i + 1 = pm.slots.length →
      pm.removePeer p = some (true,
        { slots := pm.slots.dropLast,
          peerIndices := aerase p pm.peerIndices,
          slotCount := lastStop pm.slots.dropLast,
          fragmentation := pm.fragmentation }) ∧
      alookup p (aerase p pm.peerIndices) = none) ∧
    (∀ i, ∀ hi : i < pm.slots.length, alookup p pm.peerIndices = some i →
      i + 1 ≠ pm.slots.length →
      pm.removePeer p = some (true,
        { slots := pm.slots.set i ((pm.slots.get ⟨i, hi⟩).withPeerId NO_PEER),
          peerIndices := aerase p pm.peerIndices,
          slotCount := pm.slotCount,
          fragmentation :=
            (pm.fragmentation + (pm.slots.get ⟨i, hi⟩).score) % W }) ∧
      alookup p (aerase p pm.peerIndices) = none) := by
  refine ⟨?_, ?_, ?_⟩
  · intro hl
    simp [PeerManager.removePeer, hl]
  · intro i hl hlast
    have hi : i < pm.slots.length := hbound i hl
    constructor
    · simp only [PeerManager.removePeer, hl]
      rw [dif_pos hi, if_pos hlast]
    · exact alookup_aerase_self hnd
  · intro i hi hl hlast
    constructor
    · simp only [PeerManager.removePeer, hl]
      rw [dif_pos hi, if_neg hlast]
    · exact alookup_aerase_self hnd

/-- Witness for C7: all three cases at the concrete two-peer state
[(0,10,1),(10,20,2)]: removing the unknown peer 3, the last-slot peer 2 and
the interior peer 1. -/
theorem removePeer_cases_witness :
    PeerManager.removePeer ⟨[⟨0, 10, 1⟩, ⟨10, 20, 2⟩], [(1, 0), (2, 1)], 30, 0⟩ 3
      = some (false, ⟨[⟨0, 10, 1⟩, ⟨10, 20, 2⟩], [(1, 0), (2, 1)], 30, 0⟩) ∧
    PeerManager.removePeer ⟨[⟨0, 10, 1⟩, ⟨10, 20, 2⟩], [(1, 0), (2, 1)], 30, 0⟩ 2
      = some (true, ⟨[⟨0, 10, 1⟩], [(1, 0)], 10, 0⟩) ∧
    PeerManager.removePeer ⟨[⟨0, 10, 1⟩, ⟨10, 20, 2⟩], [(1, 0), (2, 1)], 30, 0⟩ 1
      = some (true, ⟨[⟨0, 10, NO_PEER⟩, ⟨10, 20, 2⟩], [(2, 1)], 30, 10⟩) := by
  have h3 := (removePeer_cases ⟨[⟨0, 10, 1⟩, ⟨10, 20, 2⟩], [(1, 0), (2, 1)], 30, 0⟩ 3
    (by decide) (fun i hi => by simp [alookup] at hi)).1 (by decide)
  have h2 := ((removePeer_cases ⟨[⟨0, 10, 1⟩, ⟨10, 20, 2⟩], [(1, 0), (2, 1)], 30, 0⟩ 2
    (by decide) (fun i hi => by simp [alookup] at hi; show i < 2; omega)).2.1 1
    (by decide) (by decide)).1
  have h1 := ((removePeer_cases ⟨[⟨0, 10, 1⟩, ⟨10, 20, 2⟩], [(1, 0), (2, 1)], 30, 0⟩ 1
    (by decide) (fun i hi => by simp [alookup] at hi; show i < 2; omega)).2.2 0
    (by decide) (by decide) (by decide)).1
  exact ⟨h3, h2.trans (by decide), h1.trans (by decide)⟩

/-!
Correctness of selectPeerImpl: the interpolation search resolves x to the
peer of the unique slot containing x, or NO_PEER when x lies in a gap.
findPeerSpec is the specification it is checked against.
-/

theorem contains_iff {s : Slot} {x : Nat} :
    s.contains x = true ↔ s.start ≤ x ∧ x < s.getStop := by
  simp [Slot.contains]

theorem precedes_iff {s : Slot} {x : Nat} :
    s.precedes x = true ↔ s.getStop ≤ x := by
  simp [Slot.precedes]

theorem follows_iff {s : Slot} {x : Nat} :
    s.follows x = true ↔ x < s.start := by
  simp [Slot.follows]

/-- At most one slot of a sorted array contains x. -/
theorem contains_unique {l : List Slot} {x : Nat} (hs : SlotsSorted l)
    (hw : NoWrap l) {i j : Nat} {a b : Slot}
    (ha : l[i]? = some a) (hb : l[j]? = some b)
    (hca : a.contains x = true) (hcb : b.contains x = true) : i = j := by
  rw [contains_iff] at hca hcb
  rcases lt_trichotomy i j with h | h | h
  · have := sorted_rel hs hw h ha hb
    omega
  · exact h
  · have := sorted_rel hs hw h hb ha
    omega

theorem find?_eq_some_of_first {α : Type} {l : List α} {p : α → Bool}
    {a : α} : ∀ {i : Nat}, l[i]? = some a → p a = true →
    (∀ j b, j < i → l[j]? = some b → p b = false) →
    l.find? p = some a := by
  induction l with
  | nil =>
    intro i ha _ _
    rw [List.getElem?_nil] at ha
    exact Option.noConfusion ha
  | cons c t ih =>
    intro i ha hpa hfirst
    cases i with
    | zero =>
      rw [List.getElem?_cons_zero] at ha
      have hac : a = c := (Option.some.inj ha).symm
      subst hac
      rw [List.find?_cons, hpa]
    | succ k =>
      rw [List.getElem?_cons_succ] at ha
      have hpc : p c = false := hfirst 0 c (Nat.succ_pos k) List.getElem?_cons_zero
      rw [List.find?_cons, hpc]
      refine ih ha hpa ?_
      intro j b hj hb
      exact hfirst (j + 1) b (by omega) (by rw [List.getElem?_cons_succ]; exact hb)

theorem find?_eq_none_of_all {α : Type} {l : List α} {p : α → Bool}
    (h : ∀ (j : Nat) (b : α), l[j]? = some b → p b = false) : l.find? p = none := by
  rw [List.find?_eq_none]
  intro a ha
  obtain ⟨j, hj⟩ := List.mem_iff_getElem?.mp ha
  rw [h j a hj]
  exact Bool.false_ne_true

/-- If slot i contains x in a sorted array, the spec answer is its peer. -/
theorem findPeerSpec_of_contains {l : List Slot} {x : Nat} (hs : SlotsSorted l)
    (hw : NoWrap l) {i : Nat} {a : Slot} (ha : l[i]? = some a)
    (hca : a.contains x = true) : findPeerSpec l x = a.peer := by
  rw [findPeerSpec, find?_eq_some_of_first ha hca ?_]
  intro j b hj hb
  by_contra hcb
  rw [Bool.not_eq_false] at hcb
  have := contains_unique hs hw ha hb hca hcb
  omega

/-- If no slot contains x, the spec answer is NO_PEER. -/
theorem findPeerSpec_of_gap {l : List Slot} {x : Nat}
    (h : ∀ (j : Nat) (a : Slot), l[j]? = some a → a.contains x = false) :
    findPeerSpec l x = NO_PEER := by
  rw [findPeerSpec, find?_eq_none_of_all h]

theorem linearScan_correct {slots : List Slot} {x : Nat}
    (hs : SlotsSorted slots) (hw : NoWrap slots) :
    ∀ fuel b e, e ≤ slots.length → e - b < fuel →
      (∀ (j : Nat) (a : Slot), slots[j]? = some a → a.contains x = true →
        b ≤ j ∧ j < e) →
      linearScan slots x fuel b e = some (findPeerSpec slots x) := by
  intro fuel
  induction fuel with
  | zero =>
    intro b e _ hf _
    omega
  | succ fuel ih =>
    intro b e hel hf hwin
    rw [linearScan]
    by_cases hbe : b < e
    · rw [if_pos hbe]
      have hb : slots[b]? = some slots[b] := List.getElem?_eq_getElem (by omega)
      rw [hb]
      show (if (slots[b]).contains x = true then some (slots[b]).peer
            else linearScan slots x fuel (b + 1) e) = some (findPeerSpec slots x)
      by_cases hcb : (slots[b]).contains x = true
      · rw [if_pos hcb]
        rw [findPeerSpec_of_contains hs hw hb hcb]
      · rw [if_neg hcb]
        refine ih (b + 1) e hel (by omega) ?_
        intro j a hj hca
        have h1 := hwin j a hj hca
        rcases Nat.lt_or_ge b j with h2 | h2
        · omega
        · have hjb : j = b := by omega
          subst hjb
          rw [hj] at hb
          have : a = slots[j] := Option.some.inj hb.symm ▸ (Option.some.inj hb).symm
          exact absurd (this ▸ hca) hcb
    · rw [if_neg hbe]
      refine congrArg some (findPeerSpec_of_gap ?_).symm
      intro j a hj
      by_contra hca
      rw [Bool.not_eq_false] at hca
      have := hwin j a hj hca
      omega

theorem selectLoop_correct {slots : List Slot} {x : Nat}
    (hs : SlotsSorted slots) (hw : NoWrap slots) :
    ∀ fuel b e bot top,
      e ≤ slots.length → e - b < fuel →
      (∀ (j : Nat) (a : Slot), slots[j]? = some a → b ≤ j → bot ≤ a.start) →
      (∀ (j : Nat) (a : Slot), slots[j]? = some a → j < e → a.getStop ≤ top) →
      (∀ (j : Nat) (a : Slot), slots[j]? = some a → a.contains x = true →
        b ≤ j ∧ j < e) →
      selectLoop slots x fuel b e bot top = some (findPeerSpec slots x) := by
  intro fuel
  induction fuel with
  | zero => intro b e bot top _ hf _ _ _; omega
  | succ fuel ih =>
    intro b e bot top hel hf hbot htop hwin
    rw [selectLoop]
    by_cases h8 : e - b > 8
    · rw [if_pos h8]
      by_cases hout : x < bot ∨ top ≤ x
      · rw [if_pos hout]
        refine congrArg some (findPeerSpec_of_gap ?_).symm
        intro j a hj
        by_contra hcx
        rw [Bool.not_eq_false] at hcx
        obtain ⟨hwin1, hwin2⟩ := hwin j a hj hcx
        rw [contains_iff] at hcx
        rcases hout with hout | hout
        · have := hbot j a hj hwin1
          omega
        · have := htop j a hj hwin2
          omega
      · rw [if_neg hout]
        push_neg at hout
        obtain ⟨hxb, hxt⟩ := hout
        have hTpos : 0 < top - bot := by omega
        have hie : b + (x - bot) * (e - b) % W / (top - bot) < e := by
          have h1 : (x - bot) * (e - b) % W ≤ (x - bot) * (e - b) := Nat.mod_le _ _
          have h2 : (x - bot) * (e - b) ≤ (top - bot - 1) * (e - b) :=
            Nat.mul_le_mul_right _ (by omega)
          have h3 : (top - bot - 1) * (e - b) < (e - b) * (top - bot) := by
            rw [Nat.mul_comm (e - b) (top - bot)]
            have hlt : top - bot - 1 < top - bot := by omega
            have hpos : 0 < e - b := by omega
            exact Nat.mul_lt_mul_of_lt_of_le hlt (le_refl (e - b)) hpos
          have h4 : (x - bot) * (e - b) % W / (top - bot) < e - b :=
            (Nat.div_lt_iff_lt_mul hTpos).mpr (by omega)
          omega
        rw [if_pos ⟨Nat.le_add_right b _, hie⟩]
        set i := b + (x - bot) * (e - b) % W / (top - bot) with hidef
        have hib : b ≤ i := Nat.le_add_right b _
        have hilen : i < slots.length := by omega
        have hi : slots[i]? = some slots[i] := List.getElem?_eq_getElem hilen
        rw [hi]
        have hstopi : (slots[i]).start ≤ (slots[i]).getStop := by
          have h3 := hw _ (List.getElem_mem hilen)
          rw [getStop_eq h3]
          omega
        show (if (slots[i]).contains x = true then some (slots[i]).peer
              else if (slots[i]).precedes x = true then
                (if e ≤ i + 1 then some NO_PEER
                 else match slots[i + 1]? with
                      | none => none
                      | some sb => selectLoop slots x fuel (i + 1) e sb.start top)
              else if (slots[i]).follows x = true then
                selectLoop slots x fuel b i bot (slots[i]).start
              else some NO_PEER) = some (findPeerSpec slots x)
        by_cases hca : (slots[i]).contains x = true
        · rw [if_pos hca, findPeerSpec_of_contains hs hw hi hca]
        · rw [if_neg hca]
          by_cases hpr : (slots[i]).precedes x = true
          · rw [if_pos hpr]
            rw [precedes_iff] at hpr
            have hnotle : ∀ (j : Nat) (a : Slot), slots[j]? = some a → j ≤ i →
                a.contains x = false := by
              intro j a hj hji
              by_contra hc
              rw [Bool.not_eq_false, contains_iff] at hc
              rcases Nat.lt_or_ge j i with h1 | h1
              · have h2 := sorted_rel hs hw h1 hj hi
                omega
              · have hji2 : j = i := Nat.le_antisymm hji h1
                subst hji2
                rw [hi] at hj
                have ha' := Option.some.inj hj
                rw [← ha'] at hc
                omega
            by_cases hei : e ≤ i + 1
            · rw [if_pos hei]
              refine congrArg some (findPeerSpec_of_gap ?_).symm
              intro j a hj
              by_contra hc
              rw [Bool.not_eq_false] at hc
              obtain ⟨hw1, hw2⟩ := hwin j a hj hc
              have := hnotle j a hj (by omega)
              rw [hc] at this
              exact Bool.noConfusion this
            · rw [if_neg hei]
              have hi1 : slots[i + 1]? = some slots[i + 1] :=
                List.getElem?_eq_getElem (by omega)
              rw [hi1]
              show selectLoop slots x fuel (i + 1) e (slots[i + 1]).start top
                  = some (findPeerSpec slots x)
              refine ih (i + 1) e (slots[i + 1]).start top hel (by omega) ?_ htop ?_
              · intro j a hj hji
                rcases Nat.eq_or_lt_of_le hji with h1 | h1
                · rw [← h1] at hj
                  rw [hi1] at hj
                  rw [Option.some.inj hj]
                · have h2 := sorted_rel hs hw h1 hi1 hj
                  have h3 : (slots[i + 1]).start ≤ (slots[i + 1]).getStop := by
                    have h4 := hw _ (List.getElem_mem (show i + 1 < slots.length by omega))
                    rw [getStop_eq h4]
                    omega
                  omega
              · intro j a hj hc
                obtain ⟨hw1, hw2⟩ := hwin j a hj hc
                refine ⟨?_, hw2⟩
                by_contra h1
                have := hnotle j a hj (by omega)
                rw [hc] at this
                exact Bool.noConfusion this
          · rw [if_neg hpr]
            by_cases hfo : (slots[i]).follows x = true
            · rw [if_pos hfo]
              rw [follows_iff] at hfo
              have hnotge : ∀ (j : Nat) (a : Slot), slots[j]? = some a → i ≤ j →
                  a.contains x = false := by
                intro j a hj hji
                by_contra hc
                rw [Bool.not_eq_false, contains_iff] at hc
                rcases Nat.eq_or_lt_of_le hji with h1 | h1
                · rw [← h1] at hj
                  rw [hi] at hj
                  have ha' := Option.some.inj hj
                  rw [← ha'] at hc
                  omega
                · have h2 := sorted_rel hs hw h1 hi hj
                  omega
              refine ih b i bot (slots[i]).start (by omega) (by omega) hbot ?_ ?_
              · intro j a hj hji
                exact sorted_rel hs hw hji hj hi
              · intro j a hj hc
                obtain ⟨hw1, hw2⟩ := hwin j a hj hc
                refine ⟨hw1, ?_⟩
                by_contra h1
                have := hnotge j a hj (by omega)
                rw [hc] at this
                exact Bool.noConfusion this
            · rw [if_neg hfo]
              exfalso
              rw [contains_iff] at hca
              rw [precedes_iff] at hpr
              rw [follows_iff] at hfo
              omega
    · rw [if_neg h8]
      exact linearScan_correct hs hw (e - b + 1) b e hel (by omega) hwin

/-- Claim C1: for every slot array satisfying the §3 invariants (adjacent
slots monotone and non-overlapping, stops on the 64-bit number line) and
every offset x below slotCount (= the last stop), selectPeerImpl returns
exactly the peer field of the slot containing x when one exists — the
sentinel NO_PEER when that slot is a tombstone, since a tombstone's peer
field is the sentinel — and NO_PEER when x lies in a gap; the containing
slot is unique, so the loop never returns a live peer of a slot not
containing x. -/
theorem selectPeerImpl_correct (slots : List Slot) (x : Nat)
    (hs : SlotsSorted slots) (hw : NoWrap slots) (hx : x < lastStop slots) :
    selectPeerImpl slots x (lastStop slots) = some (findPeerSpec slots x) ∧
    (∀ (i j : Nat) (a b : Slot), slots[i]? = some a → slots[j]? = some b →
      a.contains x = true → b.contains x = true → i = j) := by
  constructor
  · rw [selectPeerImpl, if_pos (le_of_lt hx)]
    refine selectLoop_correct hs hw (slots.length + 1) 0 slots.length 0
      (lastStop slots) (le_refl _) (by omega) (fun j a _ _ => Nat.zero_le _) ?_ ?_
    · intro j a hj _
      exact getStop_le_lastStop hs hw hj
    · intro j a hj _
      exact ⟨Nat.zero_le _, (List.getElem?_eq_some.mp hj).1⟩
  · intro i j a b ha hb hca hcb
    exact contains_unique hs hw ha hb hca hcb

/-- Witness for C1: a 12-slot array (so the interpolation loop runs) with a
gap [50, 60) carved by a shrink; offset 55 resolves to NO_PEER and offset
45 to peer 5, matching the specification function. -/
theorem selectPeerImpl_correct_witness :
    selectPeerImpl [⟨0, 10, 1⟩, ⟨10, 10, 2⟩, ⟨20, 10, 3⟩, ⟨30, 10, 4⟩,
        ⟨40, 10, 5⟩, ⟨50, 10, NO_PEER⟩, ⟨60, 10, 7⟩, ⟨70, 10, 8⟩, ⟨80, 10, 9⟩,
        ⟨90, 10, 10⟩, ⟨100, 10, 11⟩, ⟨110, 10, 12⟩] 45
      (lastStop [⟨0, 10, 1⟩, ⟨10, 10, 2⟩, ⟨20, 10, 3⟩, ⟨30, 10, 4⟩,
        ⟨40, 10, 5⟩, ⟨50, 10, NO_PEER⟩, ⟨60, 10, 7⟩, ⟨70, 10, 8⟩, ⟨80, 10, 9⟩,
        ⟨90, 10, 10⟩, ⟨100, 10, 11⟩, ⟨110, 10, 12⟩])
      = some (findPeerSpec [⟨0, 10, 1⟩, ⟨10, 10, 2⟩, ⟨20, 10, 3⟩, ⟨30, 10, 4⟩,
        ⟨40, 10, 5⟩, ⟨50, 10, NO_PEER⟩, ⟨60, 10, 7⟩, ⟨70, 10, 8⟩, ⟨80, 10, 9⟩,
        ⟨90, 10, 10⟩, ⟨100, 10, 11⟩, ⟨110, 10, 12⟩] 45) ∧
    findPeerSpec [⟨0, 10, 1⟩, ⟨10, 10, 2⟩, ⟨20, 10, 3⟩, ⟨30, 10, 4⟩,
        ⟨40, 10, 5⟩, ⟨50, 10, NO_PEER⟩, ⟨60, 10, 7⟩, ⟨70, 10, 8⟩, ⟨80, 10, 9⟩,
        ⟨90, 10, 10⟩, ⟨100, 10, 11⟩, ⟨110, 10, 12⟩] 45 = 5 := by
  refine ⟨(selectPeerImpl_correct _ 45 ?_ ?_ ?_).1, by decide⟩
  · rw [SlotsSorted, List.chain'_iff_get]
    decide
  · intro s hsm
    fin_cases hsm <;> decide
  · decide

/-- Claim C10: on a §3-invariant slot array with slot ≤ max (max being the
last stop, the slotCount of such a state), selectPeerImpl completes without
any abort: whenever the probe is computed the window check has ensured
bottom ≤ slot < top, the probe index i = begin + (slot − bottom)(end −
begin)/(top − bottom) — with the 64-bit product taken modulo 2^64 —
satisfies begin ≤ i < end, so the in-loop assertion holds and every access
slots[i] is in bounds (an assert failure or out-of-bounds access is
modelled as none, and the result is proved to be some). -/
theorem selectPeerImpl_no_abort (slots : List Slot) (x max : Nat)
    (hs : SlotsSorted slots) (hw : NoWrap slots)
    (hxm : x ≤ max) (hmax : max = lastStop slots) :
    (selectPeerImpl slots x max).isSome = true := by
  subst hmax
  rw [selectPeerImpl, if_pos hxm]
  rw [selectLoop_correct hs hw (slots.length + 1) 0 slots.length 0
    (lastStop slots) (le_refl _) (by omega) (fun j a _ _ => Nat.zero_le _)
    (fun j a hj _ => getStop_le_lastStop hs hw hj)
    (fun j a hj _ => ⟨Nat.zero_le _, (List.getElem?_eq_some.mp hj).1⟩)]
  rfl

/-- Witness for C10: the probe computation completes on the 12-slot array,
also at the boundary offset x = max. -/
theorem selectPeerImpl_no_abort_witness :
    (selectPeerImpl [⟨0, 10, 1⟩, ⟨10, 10, 2⟩, ⟨20, 10, 3⟩, ⟨30, 10, 4⟩,
        ⟨40, 10, 5⟩, ⟨50, 10, NO_PEER⟩, ⟨60, 10, 7⟩, ⟨70, 10, 8⟩, ⟨80, 10, 9⟩,
        ⟨90, 10, 10⟩, ⟨100, 10, 11⟩, ⟨110, 10, 12⟩] 120 120).isSome = true := by
  refine selectPeerImpl_no_abort _ 120 120 ?_ ?_ (by decide) (by decide)
  · rw [SlotsSorted, List.chain'_iff_get]
    decide
  · intro s hsm
    fin_cases hsm <;> decide

/-!
Compaction: helper lemmas about trimDead, liveKeys, packedFrom and score
sums.
-/

theorem prefix_getElem? {α : Type} {l1 l2 : List α} (h : List.IsPrefix l1 l2)
    {j : Nat} (hj : j < l1.length) : l2[j]? = l1[j]? := by
  rw [List.prefix_iff_eq_take] at h
  conv_rhs => rw [h]
  rw [List.getElem?_take, if_pos hj]

theorem set_get_self : ∀ (l : List Slot) (i : Nat) (h : i < l.length),
    l.set i (l.get ⟨i, h⟩) = l := by
  intro l
  induction l with
  | nil => intro i h; simp at h
  | cons c t ih =>
    intro i h
    cases i with
    | zero => rfl
    | succ k =>
      show c :: t.set k (t.get ⟨k, by simpa using h⟩) = c :: t
      rw [ih k (by simpa using h)]

theorem take_succ_getElem {α : Type} {l : List α} {i : Nat} {a : α}
    (h : l[i]? = some a) : l.take (i + 1) = l.take i ++ [a] := by
  rw [List.take_succ, h]
  rfl

theorem take_eq_of_getElem?_eq {α : Type} {l1 l2 : List α} {n : Nat}
    (h : ∀ j, j < n → l1[j]? = l2[j]?) : l1.take n = l2.take n := by
  apply List.ext_getElem?
  intro j
  rw [List.getElem?_take, List.getElem?_take]
  by_cases hj : j < n
  · rw [if_pos hj, if_pos hj, h j hj]
  · rw [if_neg hj, if_neg hj]

theorem getLast?_set_ne {l : List Slot} {i : Nat} {a : Slot}
    (h : i + 1 < l.length) : (l.set i a).getLast? = l.getLast? := by
  rw [List.getLast?_eq_getElem?, List.getLast?_eq_getElem?, List.length_set,
    List.getElem?_set_ne (by omega : i ≠ l.length - 1)]

theorem lastStop_cons_cons (c a : Slot) (t : List Slot) :
    lastStop (c :: a :: t) = lastStop (a :: t) := by
  rw [lastStop, lastStop, List.getLast?_cons_cons]

theorem trimDead_spec : ∀ l : List Slot,
    ∃ d, l = trimDead l ++ d ∧ ∀ s ∈ d, s.peer = NO_PEER := by
  intro l
  induction l with
  | nil => exact ⟨[], rfl, fun s hs => absurd hs (List.not_mem_nil s)⟩
  | cons c t ih =>
    obtain ⟨d, hd, hdead⟩ := ih
    cases ht : trimDead t with
    | nil =>
      rw [ht, List.nil_append] at hd
      by_cases hc : c.peer = NO_PEER
      · have heq : trimDead (c :: t) = [] := by
          rw [trimDead, ht, if_pos hc]
        refine ⟨c :: t, by rw [heq, List.nil_append], ?_⟩
        intro s hs
        rcases List.mem_cons.mp hs with h1 | h1
        · exact h1 ▸ hc
        · exact hdead s (hd ▸ h1)
      · have heq : trimDead (c :: t) = [c] := by
          rw [trimDead, ht, if_neg hc]
        refine ⟨t, ?_, fun s hs => hdead s (hd ▸ hs)⟩
        rw [heq]
        rfl
    | cons a t'' =>
      have heq : trimDead (c :: t) = c :: (a :: t'') := by
        rw [trimDead, ht]
      refine ⟨d, ?_, hdead⟩
      rw [heq]
      show c :: t = c :: ((a :: t'') ++ d)
      rw [← ht]
      exact congrArg (List.cons c) hd

theorem trimDead_last_live : ∀ (l : List Slot) (s : Slot),
    (trimDead l).getLast? = some s → s.peer ≠ NO_PEER := by
  intro l
  induction l with
  | nil =>
    intro s h
    rw [trimDead] at h
    exact absurd h (by simp)
  | cons c t ih =>
    intro s h
    cases ht : trimDead t with
    | nil =>
      by_cases hc : c.peer = NO_PEER
      · rw [trimDead, ht, if_pos hc] at h
        exact absurd h (by simp)
      · rw [trimDead, ht, if_neg hc] at h
        have hcs : c = s := by simpa using h
        exact hcs ▸ hc
    | cons a t'' =>
      rw [trimDead, ht] at h
      rw [show (c :: (a :: t'')).getLast? = (a :: t'').getLast? from
        List.getLast?_cons_cons] at h
      rw [← ht] at h
      exact ih s h

/-- Live positions survive the tail trim. -/
theorem trimDead_getElem?_live {l : List Slot} {j : Nat} {s : Slot}
    (h : l[j]? = some s) (hlive : s.peer ≠ NO_PEER) :
    (trimDead l)[j]? = some s ∧ j < (trimDead l).length := by
  obtain ⟨d, hd, hdead⟩ := trimDead_spec l
  have hj : j < (trimDead l).length := by
    by_contra hge
    push_neg at hge
    rw [hd, List.getElem?_append_right hge] at h
    obtain ⟨hb, he⟩ := List.getElem?_eq_some.mp h
    exact hlive (he ▸ hdead _ (List.getElem_mem hb))
  refine ⟨?_, hj⟩
  rw [hd, List.getElem?_append_left hj] at h
  exact h

theorem liveKeys_append (l1 l2 : List Slot) :
    liveKeys (l1 ++ l2) = liveKeys l1 + liveKeys l2 := by
  simp [liveKeys, List.filter_append]

theorem liveKeys_cons (c : Slot) (t : List Slot) :
    liveKeys (c :: t) = if c.peer = NO_PEER then liveKeys t
      else (c.peer, c.score) ::ₘ liveKeys t := by
  by_cases hc : c.peer = NO_PEER
  · simp [liveKeys, List.filter_cons, hc]
  · simp [liveKeys, List.filter_cons, hc]

theorem liveKeys_all_dead : ∀ l : List Slot,
    (∀ s ∈ l, s.peer = NO_PEER) → liveKeys l = 0 := by
  intro l
  induction l with
  | nil => intro _; rfl
  | cons c t ih =>
    intro h
    rw [liveKeys_cons, if_pos (h c (List.mem_cons_self c t))]
    exact ih (fun s hs => h s (List.mem_cons_of_mem c hs))

theorem liveKeys_set_live : ∀ (l : List Slot) (i : Nat) (s a : Slot),
    l[i]? = some s → a.peer = s.peer → a.score = s.score →
    liveKeys (l.set i a) = liveKeys l := by
  intro l
  induction l with
  | nil => intro i s a h _ _; simp at h
  | cons c t ih =>
    intro i s a h hp hsc
    cases i with
    | zero =>
      rw [List.getElem?_cons_zero] at h
      have hcs : c = s := Option.some.inj h
      subst hcs
      show liveKeys (a :: t) = liveKeys (c :: t)
      rw [liveKeys_cons, liveKeys_cons, hp, hsc]
    | succ k =>
      rw [List.getElem?_cons_succ] at h
      show liveKeys (c :: t.set k a) = liveKeys (c :: t)
      rw [liveKeys_cons, liveKeys_cons, ih k s a h hp hsc]

theorem liveKeys_set_dead_live : ∀ (l : List Slot) (i : Nat) (s a : Slot),
    l[i]? = some s → s.peer = NO_PEER → a.peer ≠ NO_PEER →
    liveKeys (l.set i a) = (a.peer, a.score) ::ₘ liveKeys l := by
  intro l
  induction l with
  | nil => intro i s a h _ _; simp at h
  | cons c t ih =>
    intro i s a h hdead halive
    cases i with
    | zero =>
      rw [List.getElem?_cons_zero] at h
      have hcs : c = s := Option.some.inj h
      subst hcs
      show liveKeys (a :: t) = (a.peer, a.score) ::ₘ liveKeys (c :: t)
      rw [liveKeys_cons, liveKeys_cons, if_pos hdead, if_neg halive]
    | succ k =>
      rw [List.getElem?_cons_succ] at h
      show liveKeys (c :: t.set k a) = (a.peer, a.score) ::ₘ liveKeys (c :: t)
      rw [liveKeys_cons, liveKeys_cons, ih k s a h hdead halive]
      by_cases hc : c.peer = NO_PEER
      · rw [if_pos hc, if_pos hc]
      · rw [if_neg hc, if_neg hc]
        exact (Multiset.cons_swap _ _ _)

theorem keySum_add (K1 K2 : Multiset (PeerId × Nat)) :
    keySum (K1 + K2) = keySum K1 + keySum K2 := by
  simp [keySum]

theorem mem_le_keySum {k : PeerId × Nat} {K : Multiset (PeerId × Nat)}
    (h : k ∈ K) : k.2 ≤ keySum K :=
  Multiset.single_le_sum (fun _ _ => Nat.zero_le _) _
    (Multiset.mem_map.mpr ⟨k, h, rfl⟩)

theorem keySum_liveKeys (l : List Slot) :
    keySum (liveKeys l)
      = scoreSum (l.filter (fun s => decide (s.peer ≠ NO_PEER))) := by
  simp only [keySum, liveKeys, scoreSum, Multiset.map_coe, Multiset.sum_coe,
    List.map_map]
  congr 1

theorem keySum_all_live {l : List Slot} (h : ∀ s ∈ l, s.peer ≠ NO_PEER) :
    keySum (liveKeys l) = scoreSum l := by
  rw [keySum_liveKeys, List.filter_eq_self.mpr (fun a ha => by simp [h a ha])]

theorem keyOf_mem_liveKeys {l : List Slot} {j : Nat} {s : Slot}
    (h : l[j]? = some s) (hlive : s.peer ≠ NO_PEER) :
    (s.peer, s.score) ∈ liveKeys l := by
  have hm : s ∈ l := by
    obtain ⟨hj, he⟩ := List.getElem?_eq_some.mp h
    exact he ▸ List.getElem_mem hj
  simp only [liveKeys, Multiset.mem_coe, List.mem_map]
  exact ⟨s, List.mem_filter.mpr ⟨hm, by simp [hlive]⟩, rfl⟩

theorem exists_of_mem_liveKeys {l : List Slot} {p : PeerId} {sc : Nat}
    (h : (p, sc) ∈ liveKeys l) :
    ∃ s ∈ l, s.peer = p ∧ s.score = sc := by
  simp only [liveKeys, Multiset.mem_coe, List.mem_map] at h
  obtain ⟨s, hsm, he⟩ := h
  have h1 : s.peer = p := congrArg Prod.fst he
  have h2 : s.score = sc := congrArg Prod.snd he
  exact ⟨s, (List.mem_filter.mp hsm).1, h1, h2⟩

theorem scoreSum_append (l1 l2 : List Slot) :
    scoreSum (l1 ++ l2) = scoreSum l1 + scoreSum l2 := by
  simp [scoreSum]

theorem scoreSum_filter_le (p : Slot → Bool) :
    ∀ l : List Slot, scoreSum (l.filter p) ≤ scoreSum l := by
  intro l
  induction l with
  | nil => exact le_refl 0
  | cons c t ih =>
    rw [List.filter_cons]
    by_cases hc : p c = true
    · rw [if_pos hc]
      show c.score + scoreSum (t.filter p) ≤ c.score + scoreSum t
      omega
    · rw [if_neg hc]
      show scoreSum (t.filter p) ≤ c.score + scoreSum t
      omega

theorem keySum_liveKeys_le_scoreSum (l : List Slot) :
    keySum (liveKeys l) ≤ scoreSum l := by
  rw [keySum_liveKeys]
  exact scoreSum_filter_le _ l

theorem head_start_add_scoreSum_le :
    ∀ (t : List Slot) (c : Slot), SlotsSorted (c :: t) → NoWrap (c :: t) →
      c.start + scoreSum (c :: t) ≤ lastStop (c :: t) := by
  intro t
  induction t with
  | nil =>
    intro c _ hw
    have h := hw c (List.mem_cons_self c [])
    show c.start + (c.score + 0) ≤ lastStop [c]
    have hl : lastStop [c] = c.getStop := rfl
    rw [hl, getStop_eq h]
    omega
  | cons a t' ih =>
    intro c hs hw
    have hrel : c.getStop ≤ a.start := (List.chain'_cons.mp hs).1
    have hc := hw c (List.mem_cons_self c _)
    have hs' : SlotsSorted (a :: t') := (List.chain'_cons.mp hs).2
    have hw' : NoWrap (a :: t') := fun x hx => hw x (List.mem_cons_of_mem c hx)
    have hih := ih a hs' hw'
    rw [lastStop_cons_cons]
    show c.start + (c.score + scoreSum (a :: t')) ≤ lastStop (a :: t')
    rw [getStop_eq hc] at hrel
    omega

theorem scoreSum_le_lastStop {l : List Slot} (hs : SlotsSorted l)
    (hw : NoWrap l) : scoreSum l ≤ lastStop l := by
  cases l with
  | nil => exact le_refl 0
  | cons c t =>
    have := head_start_add_scoreSum_le t c hs hw
    omega

theorem packedFrom_cons {n : Nat} {s : Slot} {t : List Slot} :
    packedFrom n (s :: t) = true ↔
      s.start = n ∧ s.peer ≠ NO_PEER ∧
        packedFrom (s.start + s.score) t = true := by
  simp [packedFrom, and_assoc]

theorem packedFrom_all_live :
    ∀ (l : List Slot) (n : Nat), packedFrom n l = true →
      ∀ s ∈ l, s.peer ≠ NO_PEER := by
  intro l
  induction l with
  | nil => intro n _ s hs; exact absurd hs (List.not_mem_nil s)
  | cons c t ih =>
    intro n h s hs
    obtain ⟨h1, h2, h3⟩ := packedFrom_cons.mp h
    rcases List.mem_cons.mp hs with h4 | h4
    · exact h4 ▸ h2
    · exact ih _ h3 s h4

theorem packedFrom_snoc :
    ∀ (l : List Slot) (n : Nat) (s : Slot), packedFrom n l = true →
      s.start = n + scoreSum l → s.peer ≠ NO_PEER →
      packedFrom n (l ++ [s]) = true := by
  intro l
  induction l with
  | nil =>
    intro n s _ hst hlive
    have h0 : scoreSum ([] : List Slot) = 0 := rfl
    rw [h0] at hst
    exact packedFrom_cons.mpr ⟨by omega, hlive, rfl⟩
  | cons c t ih =>
    intro n s h hst hlive
    obtain ⟨h1, h2, h3⟩ := packedFrom_cons.mp h
    refine packedFrom_cons.mpr ⟨h1, h2, ?_⟩
    refine ih (c.start + c.score) s h3 ?_ hlive
    have hsum : scoreSum (c :: t) = c.score + scoreSum t := rfl
    rw [hst, hsum, h1]
    omega

theorem packedFrom_start :
    ∀ (l : List Slot) (n i : Nat) (s : Slot), packedFrom n l = true →
      l[i]? = some s → s.start = n + scoreSum (l.take i) := by
  intro l
  induction l with
  | nil => intro n i s _ h; simp at h
  | cons c t ih =>
    intro n i s h hsi
    obtain ⟨h1, h2, h3⟩ := packedFrom_cons.mp h
    cases i with
    | zero =>
      rw [List.getElem?_cons_zero] at hsi
      have hcs : c = s := Option.some.inj hsi
      subst hcs
      have h0 : scoreSum ((c :: t).take 0) = 0 := rfl
      rw [h0]
      omega
    | succ k =>
      rw [List.getElem?_cons_succ] at hsi
      have hk := ih (c.start + c.score) k s h3 hsi
      rw [List.take_succ_cons]
      have hsum : scoreSum (c :: t.take k) = c.score + scoreSum (t.take k) := rfl
      rw [hsum]
      omega

theorem packedFrom_facts :
    ∀ (l : List Slot) (n : Nat), packedFrom n l = true → n + scoreSum l < W →
      List.Chain' (fun a b => a.getStop ≤ b.start) l ∧
      (∀ s ∈ l, s.start + s.score < W) ∧
      (l = [] ∨ lastStop l = n + scoreSum l) := by
  intro l
  induction l with
  | nil =>
    intro n _ _
    exact ⟨List.chain'_nil, fun s hs => absurd hs (List.not_mem_nil s), Or.inl rfl⟩
  | cons c t ih =>
    intro n h hb
    obtain ⟨h1, h2, h3⟩ := packedFrom_cons.mp h
    have hsum : scoreSum (c :: t) = c.score + scoreSum t := rfl
    rw [hsum] at hb
    have hb' : c.start + c.score + scoreSum t < W := by omega
    obtain ⟨ihc, ihw, ihl⟩ := ih (c.start + c.score) h3 hb'
    have hcw : c.start + c.score < W := by omega
    refine ⟨?_, ?_, ?_⟩
    · rw [List.chain'_cons']
      refine ⟨?_, ihc⟩
      intro y hy
      rw [getStop_eq hcw]
      cases t with
      | nil => simp at hy
      | cons a t' =>
        have hya : a = y := by simpa using hy
        subst hya
        obtain ⟨ha1, _, _⟩ := packedFrom_cons.mp h3
        omega
    · intro s hs
      rcases List.mem_cons.mp hs with h4 | h4
      · exact h4 ▸ hcw
      · exact ihw s h4
    · refine Or.inr ?_
      cases t with
      | nil =>
        have hl1 : lastStop [c] = c.getStop := rfl
        rw [hl1, getStop_eq hcw]
        have h0 : scoreSum [c] = c.score + 0 := rfl
        rw [h0]
        omega
      | cons a t' =>
        rcases ihl with hnil | hlast
        · exact absurd hnil (by simp)
        · rw [lastStop_cons_cons, hlast]
          have hsum2 : scoreSum (c :: a :: t') = c.score + scoreSum (a :: t') := rfl
          rw [hsum2]
          omega

/-- The compaction sweep: from a trimmed state with a packed live prefix it
terminates without hitting the assert, producing a packed array carrying the
same live (peer, score) multiset, with the index exactly tracking positions. -/
theorem compactLoop_spec (K0 : Multiset (PeerId × Nat)) (hK : keySum K0 < W) :
    ∀ (fuel : Nat) (L : List Slot) (idx : List (PeerId × Nat)) (i prev : Nat),
      L.length - i < fuel →
      packedFrom 0 (L.take i) = true →
      prev = scoreSum (L.take i) →
      (∀ s, L.getLast? = some s → s.peer ≠ NO_PEER) →
      liveKeys L = K0 →
      (idx.map Prod.fst).Nodup →
      (∀ e ∈ idx, e.1 ≠ NO_PEER) →
      (∀ (j : Nat) (s : Slot), L[j]? = some s → s.peer ≠ NO_PEER →
        alookup s.peer idx = some j) →
      (∀ e ∈ idx, (L[e.2]?).map Slot.peer = some e.1) →
      ∃ Lf idxf,
        compactLoop fuel L idx i prev = some (Lf, idxf, scoreSum Lf) ∧
        packedFrom 0 Lf = true ∧
        liveKeys Lf = K0 ∧
        (idxf.map Prod.fst).Nodup ∧
        (∀ e ∈ idxf, e.1 ≠ NO_PEER) ∧
        (∀ (j : Nat) (s : Slot), Lf[j]? = some s → s.peer ≠ NO_PEER →
          alookup s.peer idxf = some j) ∧
        (∀ e ∈ idxf, (Lf[e.2]?).map Slot.peer = some e.1) := by
  intro fuel
  induction fuel with
  | zero => intro L idx i prev hf; omega
  | succ fuel ih =>
    intro L idx i prev hf hpack hprev hlast hkeys hnd hns hlook hval
    cases hLi : L[i]? with
    | none =>
      simp only [compactLoop, hLi]
      have hge : L.length ≤ i := by
        by_contra hlt
        push_neg at hlt
        rw [List.getElem?_eq_getElem hlt] at hLi
        exact Option.noConfusion hLi
      have htake : L.take i = L := List.take_of_length_le hge
      rw [htake] at hpack hprev
      exact ⟨L, idx, by rw [hprev], hpack, hkeys, hnd, hns, hlook, hval⟩
    | some s =>
      simp only [compactLoop, hLi]
      have hilen : i < L.length := by
        by_contra hge
        push_neg at hge
        rw [List.getElem?_eq_none hge] at hLi
        exact Option.noConfusion hLi
      have hsplit : liveKeys (L.take i) + liveKeys (L.drop i) = K0 := by
        rw [← liveKeys_append, List.take_append_drop]
        exact hkeys
      have htake_live : ∀ t ∈ L.take i, t.peer ≠ NO_PEER :=
        packedFrom_all_live _ _ hpack
      have hksum : scoreSum (L.take i) + keySum (liveKeys (L.drop i))
          = keySum K0 := by
        rw [← hsplit, keySum_add, keySum_all_live htake_live]
      by_cases hlive : s.peer ≠ NO_PEER
      · rw [if_pos hlive]
        have hdropmem : (s.peer, s.score) ∈ liveKeys (L.drop i) := by
          have hd0 : (L.drop i)[0]? = some s := by
            rw [List.getElem?_drop, Nat.add_zero]
            exact hLi
          exact keyOf_mem_liveKeys hd0 hlive
        have hbound : prev + s.score < W := by
          have h1 := mem_le_keySum hdropmem
          simp only at h1
          omega
        have hstop' : (s.withStart prev).getStop = prev + s.score :=
          Nat.mod_eq_of_lt hbound
        have hsetlen : (L.set i (s.withStart prev)).length = L.length :=
          List.length_set _ _ _
        have hseti : (L.set i (s.withStart prev))[i]? = some (s.withStart prev) :=
          List.getElem?_set_self hilen
        have htakei : (L.set i (s.withStart prev)).take i = L.take i :=
          take_eq_of_getElem?_eq
            (fun j hj => List.getElem?_set_ne (by omega))
        have htakesucc : (L.set i (s.withStart prev)).take (i + 1)
            = L.take i ++ [s.withStart prev] := by
          rw [take_succ_getElem hseti, htakei]
        refine ih (L.set i (s.withStart prev)) idx (i + 1)
          ((s.withStart prev).getStop) (by omega) ?_ ?_ ?_ ?_ hnd hns ?_ ?_
        · rw [htakesucc]
          refine packedFrom_snoc _ _ _ hpack ?_ hlive
          show prev = 0 + scoreSum (L.take i)
          omega
        · rw [htakesucc, scoreSum_append, hstop']
          show prev + s.score = scoreSum (L.take i) + (s.score + 0)
          omega
        · intro u hu
          by_cases hil : i + 1 = L.length
          · rw [List.getLast?_eq_getElem?, hsetlen,
              show L.length - 1 = i from by omega, hseti] at hu
            have : s.withStart prev = u := Option.some.inj hu
            rw [← this]
            exact hlive
          · rw [getLast?_set_ne (by omega)] at hu
            exact hlast u hu
        · rw [liveKeys_set_live L i s (s.withStart prev) hLi rfl rfl]
          exact hkeys
        · intro j u hju hulive
          by_cases hji : j = i
          · subst hji
            rw [hseti] at hju
            have hus : s.withStart prev = u := Option.some.inj hju
            rw [← hus]
            exact hlook j s hLi hlive
          · rw [List.getElem?_set_ne (fun hc => hji hc.symm)] at hju
            exact hlook j u hju hulive
        · intro e he
          by_cases hei : e.2 = i
          · rw [hei, hseti]
            have h1 := hval e he
            rw [hei, hLi] at h1
            exact h1
          · rw [List.getElem?_set_ne (fun hc => hei hc.symm)]
            exact hval e he
      · rw [if_neg hlive]
        have hsdead : s.peer = NO_PEER := not_not.mp hlive
        have hLne : L ≠ [] := by
          intro hc
          rw [hc] at hilen
          simp at hilen
        have hlast_pos : L.getLast? = some (L.getLast hLne) :=
          List.getLast?_eq_getLast L hLne
        have hblive : (L.getLast hLne).peer ≠ NO_PEER := hlast _ hlast_pos
        simp only [hlast_pos]
        rw [if_neg (show ¬ (L.getLast hLne).peer = NO_PEER from hblive)]
        set b := L.getLast hLne with hbdef
        have hbpos : L[L.length - 1]? = some b := by
          rw [← List.getLast?_eq_getElem?]
          exact hlast_pos
        have hine : i ≠ L.length - 1 := by
          intro hc
          rw [hc, hbpos] at hLi
          exact hblive ((Option.some.inj hLi) ▸ hsdead)
        have hi2 : i < L.length - 1 := by omega
        have hdropmem : (b.peer, b.score) ∈ liveKeys (L.drop i) := by
          have hd0 : (L.drop i)[L.length - 1 - i]? = some b := by
            rw [List.getElem?_drop, show i + (L.length - 1 - i) = L.length - 1 from by omega]
            exact hbpos
          exact keyOf_mem_liveKeys hd0 hblive
        have hbound : prev + b.score < W := by
          have h1 := mem_le_keySum hdropmem
          simp only at h1
          omega
        have hstop' : (b.withStart prev).getStop = prev + b.score :=
          Nat.mod_eq_of_lt hbound
        have hsetlen : (L.set i (b.withStart prev)).length = L.length :=
          List.length_set _ _ _
        have hMlen : ((L.set i (b.withStart prev)).dropLast).length = L.length - 1 := by
          rw [List.length_dropLast, hsetlen]
        have hMi : ((L.set i (b.withStart prev)).dropLast)[i]? = some (b.withStart prev) := by
          rw [getElem?_dropLast _ _ (by rw [hsetlen]; omega)]
          exact List.getElem?_set_self hilen
        have hMj : ∀ j, j < L.length - 1 → j ≠ i →
            ((L.set i (b.withStart prev)).dropLast)[j]? = L[j]? := by
          intro j hj hji
          rw [getElem?_dropLast _ _ (by rw [hsetlen]; omega),
            List.getElem?_set_ne (fun hc => hji hc.symm)]
        obtain ⟨dM, hdM, hdMdead⟩ := trimDead_spec ((L.set i (b.withStart prev)).dropLast)
        have hL'pref : List.IsPrefix (trimDead ((L.set i (b.withStart prev)).dropLast))
            ((L.set i (b.withStart prev)).dropLast) := ⟨dM, hdM.symm⟩
        have hL'len : (trimDead ((L.set i (b.withStart prev)).dropLast)).length
            ≤ L.length - 1 := by
          rw [← hMlen]
          exact hL'pref.length_le
        have hL'i := trimDead_getElem?_live hMi (by exact hblive)
        have hL'get : ∀ j, j < (trimDead ((L.set i (b.withStart prev)).dropLast)).length →
            (trimDead ((L.set i (b.withStart prev)).dropLast))[j]?
              = ((L.set i (b.withStart prev)).dropLast)[j]? := by
          intro j hj
          exact (prefix_getElem? hL'pref hj).symm
        have htakei : (trimDead ((L.set i (b.withStart prev)).dropLast)).take i
            = L.take i := by
          refine take_eq_of_getElem?_eq ?_
          intro j hj
          rw [hL'get j (by omega), hMj j (by omega) (by omega)]
        have htakesucc : (trimDead ((L.set i (b.withStart prev)).dropLast)).take (i + 1)
            = L.take i ++ [b.withStart prev] := by
          rw [take_succ_getElem hL'i.1, htakei]
        -- live keys are preserved
        have hsetkeys : liveKeys (L.set i (b.withStart prev))
            = (b.peer, b.score) ::ₘ liveKeys L :=
          liveKeys_set_dead_live L i s (b.withStart prev) hLi hsdead (by exact hblive)
        have hsetlast : (L.set i (b.withStart prev)).getLast? = some b := by
          rw [getLast?_set_ne (by omega)]
          exact hlast_pos
        have hsetne : L.set i (b.withStart prev) ≠ [] := by
          intro hc
          have h0 : (L.set i (b.withStart prev)).length = 0 := by rw [hc]; rfl
          rw [hsetlen] at h0
          omega
        have hsetdecomp : (L.set i (b.withStart prev)).dropLast
            ++ [(L.set i (b.withStart prev)).getLast hsetne]
            = L.set i (b.withStart prev) := List.dropLast_append_getLast hsetne
        have hgetlast_b : (L.set i (b.withStart prev)).getLast hsetne = b := by
          have h1 := List.getLast?_eq_getLast (L.set i (b.withStart prev)) hsetne
          rw [hsetlast] at h1
          exact (Option.some.inj h1).symm
        have hMkeys : liveKeys ((L.set i (b.withStart prev)).dropLast) = liveKeys L := by
          have h1 : liveKeys ((L.set i (b.withStart prev)).dropLast)
              + liveKeys [b] = (b.peer, b.score) ::ₘ liveKeys L := by
            rw [← liveKeys_append]
            rw [hgetlast_b] at hsetdecomp
            rw [hsetdecomp]
            exact hsetkeys
          have h2 : liveKeys [b] = (b.peer, b.score) ::ₘ 0 := by
            rw [liveKeys_cons, if_neg (by exact hblive)]
            rfl
          rw [h2] at h1
          have h3 : liveKeys ((L.set i (b.withStart prev)).dropLast)
              + ((b.peer, b.score) ::ₘ 0)
              = (b.peer, b.score) ::ₘ (liveKeys ((L.set i (b.withStart prev)).dropLast) + 0) := by
            rw [Multiset.add_cons]
          rw [h3, add_zero] at h1
          exact (Multiset.cons_inj_right (b.peer, b.score)).mp h1
        have hL'keys : liveKeys (trimDead ((L.set i (b.withStart prev)).dropLast))
            = K0 := by
          have h1 : liveKeys ((L.set i (b.withStart prev)).dropLast)
              = liveKeys (trimDead ((L.set i (b.withStart prev)).dropLast))
                + liveKeys dM := by
            conv_lhs => rw [hdM]
            exact liveKeys_append _ _
          rw [liveKeys_all_dead dM hdMdead, add_zero] at h1
          rw [← h1, hMkeys, hkeys]
        have hlookb : alookup b.peer idx = some (L.length - 1) :=
          hlook (L.length - 1) b hbpos hblive
        refine ih (trimDead ((L.set i (b.withStart prev)).dropLast))
          (aset b.peer i idx) (i + 1) ((b.withStart prev).getStop)
          (by omega) ?_ ?_ ?_ hL'keys ?_ ?_ ?_ ?_
        · rw [htakesucc]
          refine packedFrom_snoc _ _ _ hpack ?_ (by exact hblive)
          show prev = 0 + scoreSum (L.take i)
          omega
        · rw [htakesucc, scoreSum_append, hstop']
          show prev + b.score = scoreSum (L.take i) + (b.score + 0)
          omega
        · intro u hu
          exact trimDead_last_live _ u hu
        · rw [map_fst_aset_of_mem hlookb]
          exact hnd
        · intro e he
          rcases mem_aset he with h1 | h1
          · rw [h1]
            exact hblive
          · exact hns e h1
        · intro j u hju hulive
          have hjlen : j < (trimDead ((L.set i (b.withStart prev)).dropLast)).length :=
            (List.getElem?_eq_some.mp hju).1
          have hjM := hL'get j hjlen
          rw [hjM] at hju
          by_cases hji : j = i
          · subst hji
            rw [hMi] at hju
            have hub : b.withStart prev = u := Option.some.inj hju
            rw [← hub]
            show alookup b.peer _ = some j
            exact alookup_aset_self
          · rw [hMj j (by omega) hji] at hju
            have h1 := hlook j u hju hulive
            have hne2 : u.peer ≠ b.peer := by
              intro hc
              rw [hc, hlookb] at h1
              have : L.length - 1 = j := Option.some.inj h1
              omega
            rw [alookup_aset_ne hne2]
            exact h1
        · intro e he
          rcases mem_aset_nodup hnd he with h1 | h1
          · rw [h1]
            rw [h1] at he
            show ((trimDead ((L.set i (b.withStart prev)).dropLast))[i]?).map Slot.peer
              = some b.peer
            rw [hL'i.1]
            rfl
          · obtain ⟨heo, hep⟩ := h1
            have h2 := hval e heo
            have h3 := hns e heo
            obtain ⟨u, hue, hup⟩ : ∃ u, L[e.2]? = some u ∧ u.peer = e.1 := by
              cases hq : L[e.2]? with
              | none => rw [hq] at h2; simp at h2
              | some v =>
                rw [hq] at h2
                exact ⟨v, rfl, by simpa using h2⟩
            have hulive : u.peer ≠ NO_PEER := hup ▸ h3
            have hene : e.2 ≠ L.length - 1 := by
              intro hc
              rw [hc, hbpos] at hue
              have : b = u := Option.some.inj hue
              exact hep (by rw [← hup, ← this])
            have hei : e.2 ≠ i := by
              intro hc
              rw [hc, hLi] at hue
              have : s = u := Option.some.inj hue
              exact hulive (by rw [← this]; exact hsdead)
            have helen : e.2 < L.length := (List.getElem?_eq_some.mp hue).1
            have hMe : ((L.set i (b.withStart prev)).dropLast)[e.2]? = some u := by
              rw [hMj e.2 (by omega) hei]
              exact hue
            have hL'e := trimDead_getElem?_live hMe hulive
            rw [hL'e.1]
            show some u.peer = some e.1
            rw [hup]
theorem lastStop_lt_W (l : List Slot) : lastStop l < W := by
  cases h : l.getLast? with
  | none =>
    simp only [lastStop, h]
    decide
  | some s =>
    simp only [lastStop, h]
    exact getStop_lt_W s

theorem withStart_self : ∀ s : Slot, s.withStart s.start = s := by
  intro s
  cases s
  rfl

theorem scoreSum_take_le (l : List Slot) (n : Nat) :
    scoreSum (l.take n) ≤ scoreSum l := by
  conv_rhs => rw [← List.take_append_drop n l]
  rw [scoreSum_append]
  omega

theorem trimDead_all_live : ∀ l : List Slot,
    (∀ s ∈ l, s.peer ≠ NO_PEER) → trimDead l = l := by
  intro l
  induction l with
  | nil => intro _; rfl
  | cons c t ih =>
    intro h
    have ht : trimDead t = t := ih (fun s hs => h s (List.mem_cons_of_mem c hs))
    have hc := h c (List.mem_cons_self c t)
    cases htt : t with
    | nil =>
      subst htt
      simp only [trimDead, if_neg hc]
    | cons a t2 =>
      subst htt
      rw [trimDead, ht]

/-- A live slot cannot fill a key multiset with a too-small score sum; used
to keep prevStop below W during the packed identity run. -/
theorem compactLoop_packed :
    ∀ (fuel : Nat) (L : List Slot) (idx : List (PeerId × Nat)) (i prev : Nat),
      L.length - i < fuel → packedFrom 0 L = true → scoreSum L < W →
      prev = scoreSum (L.take i) →
      compactLoop fuel L idx i prev = some (L, idx, scoreSum L) := by
  intro fuel
  induction fuel with
  | zero => intro L idx i prev hf; omega
  | succ fuel ih =>
    intro L idx i prev hf hpack hW hprev
    cases hLi : L[i]? with
    | none =>
      simp only [compactLoop, hLi]
      have hge : L.length ≤ i := by
        by_contra hlt
        push_neg at hlt
        rw [List.getElem?_eq_getElem hlt] at hLi
        exact Option.noConfusion hLi
      rw [hprev, List.take_of_length_le hge]
    | some s =>
      have hilen : i < L.length := (List.getElem?_eq_some.mp hLi).1
      have hmem : s ∈ L := by
        obtain ⟨hj, he⟩ := List.getElem?_eq_some.mp hLi
        exact he ▸ List.getElem_mem hj
      have hlive : s.peer ≠ NO_PEER := packedFrom_all_live L 0 hpack s hmem
      simp only [compactLoop, hLi, if_pos hlive]
      have hstart : s.start = 0 + scoreSum (L.take i) :=
        packedFrom_start L 0 i s hpack hLi
      have hsw : s.withStart prev = s := by
        rw [hprev, show scoreSum (L.take i) = s.start from by omega]
        exact withStart_self s
      have hget : L.get ⟨i, hilen⟩ = s := by
        have h1 := List.getElem?_eq_getElem hilen
        rw [hLi] at h1
        exact (Option.some.inj h1).symm
      have hset : L.set i (s.withStart prev) = L := by
        rw [hsw, ← hget]
        exact set_get_self L i hilen
      have htksum : scoreSum (L.take (i + 1)) = scoreSum (L.take i) + s.score := by
        rw [take_succ_getElem hLi, scoreSum_append]
        have h1 : scoreSum [s] = s.score + 0 := rfl
        omega
      have hstop : (s.withStart prev).getStop = scoreSum (L.take (i + 1)) := by
        rw [hsw]
        show (s.start + s.score) % W = scoreSum (L.take (i + 1))
        have hle := scoreSum_take_le L (i + 1)
        rw [htksum]
        rw [show s.start + s.score = scoreSum (L.take i) + s.score from by omega]
        exact Nat.mod_eq_of_lt (by omega)
      rw [hset]
      exact ih L idx (i + 1) ((s.withStart prev).getStop) (by omega) hpack hW hstop

/-- PeerManager::compact from an invariant state: the call succeeds, the
result is packed from 0, carries the same live (peer, score) multiset, has
slotCount equal to its score sum, zero fragmentation, satisfies the
invariant again, and the saved amount is slotCount - new slotCount in
uint64 arithmetic. -/
theorem compact_spec {pm : PeerManager} (hInv : Inv pm) :
    ∃ pm', pm.compact = some ((pm.slotCount + W - pm'.slotCount) % W, pm') ∧
      Inv pm' ∧ packedFrom 0 pm'.slots = true ∧
      liveKeys pm'.slots = liveKeys pm.slots ∧
      pm'.slotCount = scoreSum pm'.slots ∧
      pm'.fragmentation = 0 := by
  have hs := hInv.1
  have hw := hInv.2.1
  have hnd := hInv.2.2.2.1
  have hent := hInv.2.2.2.2.1
  have hK : keySum (liveKeys pm.slots) < W := by
    have h1 := keySum_liveKeys_le_scoreSum pm.slots
    have h2 := scoreSum_le_lastStop hs hw
    have h3 := lastStop_lt_W pm.slots
    have h4 := hInv.2.2.1
    omega
  obtain ⟨d, hd, hdead⟩ := trimDead_spec pm.slots
  have hpre : List.IsPrefix (trimDead pm.slots) pm.slots := ⟨d, hd.symm⟩
  have hkeys0 : liveKeys (trimDead pm.slots) = liveKeys pm.slots := by
    conv_rhs => rw [hd]
    rw [liveKeys_append, liveKeys_all_dead d hdead, add_zero]
  have hlook0 : ∀ (j : Nat) (s : Slot), (trimDead pm.slots)[j]? = some s →
      s.peer ≠ NO_PEER → alookup s.peer pm.peerIndices = some j := by
    intro j s hj hlive
    have hjl : j < (trimDead pm.slots).length := (List.getElem?_eq_some.mp hj).1
    have hj2 : pm.slots[j]? = some s := by
      rw [prefix_getElem? hpre hjl]
      exact hj
    exact inv_live hInv j s hj2 hlive
  have hval0 : ∀ e ∈ pm.peerIndices,
      ((trimDead pm.slots)[e.2]?).map Slot.peer = some e.1 := by
    intro e he
    obtain ⟨hne, hpt⟩ := hent e he
    cases hq : pm.slots[e.2]? with
    | none =>
      rw [hq] at hpt
      exact absurd hpt (by simp)
    | some s =>
      rw [hq] at hpt
      have hsp : s.peer = e.1 := Option.some.inj hpt
      have hlive : s.peer ≠ NO_PEER := by
        rw [hsp]
        exact hne
      have ht := (trimDead_getElem?_live hq hlive).1
      rw [ht]
      show some s.peer = some e.1
      rw [hsp]
  obtain ⟨Lf, idxf, hcl, hpackf, hkeysf, hndf, hnsf, hlookf, hvalf⟩ :=
    compactLoop_spec (liveKeys pm.slots) hK ((trimDead pm.slots).length + 1)
      (trimDead pm.slots) pm.peerIndices 0 0 (by omega) rfl rfl
      (fun s h => trimDead_last_live pm.slots s h) hkeys0 hnd
      (fun e he => (hent e he).1) hlook0 hval0
  have hliveLf : ∀ s ∈ Lf, s.peer ≠ NO_PEER := packedFrom_all_live Lf 0 hpackf
  have hsumLf : scoreSum Lf < W := by
    have h1 : keySum (liveKeys Lf) = scoreSum Lf := keySum_all_live hliveLf
    rw [hkeysf] at h1
    omega
  obtain ⟨hcf, hwf, hlf⟩ := packedFrom_facts Lf 0 hpackf (by omega)
  have hlastf : lastStop Lf = scoreSum Lf := by
    rcases hlf with hnil | hlast
    · rw [hnil]
      rfl
    · omega
  refine ⟨{ slots := Lf, peerIndices := idxf, slotCount := scoreSum Lf,
            fragmentation := 0 }, ?_, ?_, hpackf, hkeysf, rfl, rfl⟩
  · simp only [PeerManager.compact]
    rw [hcl]
  · exact ⟨hcf, hwf, hlastf.symm, hndf,
      fun e he => ⟨hnsf e he, hvalf e he⟩, live_component hlookf⟩

/-- A recorded peer score, read through the index, is a live key of the
slot array. -/
theorem peerScore_mem_liveKeys {pm : PeerManager} (hInv : Inv pm) {p : PeerId}
    {sc : Nat} (h : peerScore pm p = some sc) : (p, sc) ∈ liveKeys pm.slots := by
  cases hl : alookup p pm.peerIndices with
  | none =>
    simp only [peerScore, hl] at h
    exact Option.noConfusion h
  | some i =>
    simp only [peerScore, hl] at h
    have hmem := mem_of_alookup hl
    obtain ⟨hne, hpt⟩ := hInv.2.2.2.2.1 (p, i) hmem
    cases hq : pm.slots[i]? with
    | none =>
      rw [hq] at h
      exact Option.noConfusion h
    | some s =>
      rw [hq] at h hpt
      have hsp : s.peer = p := Option.some.inj hpt
      have hsc2 : s.score = sc := Option.some.inj h
      have hlive : s.peer ≠ NO_PEER := by
        rw [hsp]
        exact hne
      have hk := keyOf_mem_liveKeys hq hlive
      rw [hsp, hsc2] at hk
      exact hk

/-- A live-key membership, with the position and liveness witnesses kept. -/
theorem exists_live_of_mem_liveKeys {l : List Slot} {p : PeerId} {sc : Nat}
    (h : (p, sc) ∈ liveKeys l) :
    ∃ (j : Nat) (s : Slot),
      l[j]? = some s ∧ s.peer = p ∧ s.score = sc ∧ s.peer ≠ NO_PEER := by
  simp only [liveKeys, Multiset.mem_coe, List.mem_map] at h
  obtain ⟨s, hsm, he⟩ := h
  obtain ⟨hsl, hfl⟩ := List.mem_filter.mp hsm
  have h1 : s.peer = p := congrArg Prod.fst he
  have h2 : s.score = sc := congrArg Prod.snd he
  have h3 : s.peer ≠ NO_PEER := by simpa using hfl
  obtain ⟨j, hj⟩ := List.mem_iff_getElem?.mp hsl
  exact ⟨j, s, hj, h1, h2, h3⟩

/-- Conversely, in an invariant state every live key is readable back
through the index. -/
theorem mem_liveKeys_peerScore {pm : PeerManager} (hInv : Inv pm) {p : PeerId}
    {sc : Nat} (h : (p, sc) ∈ liveKeys pm.slots) : peerScore pm p = some sc := by
  obtain ⟨j, s, hj, hsp, hssc, hlive⟩ := exists_live_of_mem_liveKeys h
  have hlook := inv_live hInv j s hj hlive
  rw [hsp] at hlook
  simp only [peerScore, hlook]
  rw [hj]
  show some s.score = some sc
  rw [hssc]

/-- C3: on every reachable state compact() succeeds; afterwards the live
slots are a dense prefix starting at 0 with no tombstones and no gaps
(packed), every peer recorded before is recorded after with the same score,
the new slotCount is exactly the sum of all (live) scores, fragmentation is
reset to 0, and every peer-index entry points at the slot now owned by its
peer. -/
theorem compact_correct (pm : PeerManager) (hR : Reachable pm) :
    ∃ saved pm', pm.compact = some (saved, pm') ∧
      packedFrom 0 pm'.slots = true ∧
      (∀ p sc, peerScore pm p = some sc → peerScore pm' p = some sc) ∧
      pm'.slotCount = scoreSum pm'.slots ∧
      pm'.fragmentation = 0 ∧
      (∀ e ∈ pm'.peerIndices, (pm'.slots[e.2]?).map Slot.peer = some e.1) := by
  have hInv := reachable_inv hR
  obtain ⟨pm', hc, hInv', hpack, hkeys, hsc, hfrag⟩ := compact_spec hInv
  refine ⟨_, pm', hc, hpack, ?_, hsc, hfrag,
    fun e he => (hInv'.2.2.2.2.1 e he).2⟩
  intro p sc hps
  have hmem : (p, sc) ∈ liveKeys pm.slots := peerScore_mem_liveKeys hInv hps
  rw [← hkeys] at hmem
  exact mem_liveKeys_peerScore hInv' hmem

theorem compact_correct_witness :
    Reachable ⟨[⟨0, 5, 1⟩, ⟨10, 20, 2⟩], [(1, 0), (2, 1)], 30, 5⟩ ∧
    (∃ saved pm',
      PeerManager.compact ⟨[⟨0, 5, 1⟩, ⟨10, 20, 2⟩], [(1, 0), (2, 1)], 30, 5⟩
        = some (saved, pm') ∧
      packedFrom 0 pm'.slots = true ∧
      (∀ p sc, peerScore ⟨[⟨0, 5, 1⟩, ⟨10, 20, 2⟩], [(1, 0), (2, 1)], 30, 5⟩ p
          = some sc → peerScore pm' p = some sc) ∧
      pm'.slotCount = scoreSum pm'.slots ∧
      pm'.fragmentation = 0 ∧
      (∀ e ∈ pm'.peerIndices, (pm'.slots[e.2]?).map Slot.peer = some e.1)) :=
  have hR : Reachable ⟨[⟨0, 5, 1⟩, ⟨10, 20, 2⟩], [(1, 0), (2, 1)], 30, 5⟩ :=
    ⟨[.add 1 10, .add 2 20, .rescore 1 5], by decide, by decide⟩
  ⟨hR, compact_correct ⟨[⟨0, 5, 1⟩, ⟨10, 20, 2⟩], [(1, 0), (2, 1)], 30, 5⟩ hR⟩

/-- C4: compact() is idempotent on reachable states: the second call in a
row returns saved = 0 and the state after the first call is exactly the
state after the second. -/
theorem compact_idempotent (pm : PeerManager) (hR : Reachable pm) :
    ∃ saved pm', pm.compact = some (saved, pm') ∧
      pm'.compact = some (0, pm') := by
  have hInv := reachable_inv hR
  obtain ⟨pm', hc, hInv', hpack, hkeys, hsc, hfrag⟩ := compact_spec hInv
  refine ⟨_, pm', hc, ?_⟩
  have hall : ∀ s ∈ pm'.slots, s.peer ≠ NO_PEER :=
    packedFrom_all_live pm'.slots 0 hpack
  have htrim : trimDead pm'.slots = pm'.slots := trimDead_all_live pm'.slots hall
  have hW : scoreSum pm'.slots < W := by
    have h1 := lastStop_lt_W pm'.slots
    have h2 := hInv'.2.2.1
    omega
  have hloop : compactLoop (pm'.slots.length + 1) pm'.slots pm'.peerIndices 0 0
      = some (pm'.slots, pm'.peerIndices, scoreSum pm'.slots) :=
    compactLoop_packed (pm'.slots.length + 1) pm'.slots pm'.peerIndices 0 0
      (by omega) hpack hW rfl
  simp only [PeerManager.compact, htrim]
  rw [hloop]
  show some ((pm'.slotCount + W - scoreSum pm'.slots) % W,
      ({ slots := pm'.slots, peerIndices := pm'.peerIndices,
         slotCount := scoreSum pm'.slots,
         fragmentation := 0 } : PeerManager)) = some (0, pm')
  rw [← hsc, Nat.add_sub_cancel_left, Nat.mod_self]
  have hrec : ({ slots := pm'.slots,
                 peerIndices := pm'.peerIndices,
                 slotCount := pm'.slotCount,
                 fragmentation := 0 } : PeerManager) = pm' := by
    rw [← hfrag]
  rw [hrec]

theorem compact_idempotent_witness :
    Reachable ⟨[⟨0, 10, 1⟩, ⟨10, 20, 2⟩], [(1, 0), (2, 1)], 30, 0⟩ ∧
    (∃ saved pm',
      PeerManager.compact ⟨[⟨0, 10, 1⟩, ⟨10, 20, 2⟩], [(1, 0), (2, 1)], 30, 0⟩
        = some (saved, pm') ∧ pm'.compact = some (0, pm')) :=
  have hR : Reachable ⟨[⟨0, 10, 1⟩, ⟨10, 20, 2⟩], [(1, 0), (2, 1)], 30, 0⟩ :=
    ⟨[.add 1 10, .add 2 20], by decide, by decide⟩
  ⟨hR, compact_idempotent ⟨[⟨0, 10, 1⟩, ⟨10, 20, 2⟩], [(1, 0), (2, 1)], 30, 0⟩ hR⟩

end PeerMgr
